import Mathlib

/-! dtbench: the dnstap benchmark driver (`main.go`).

A shallow embedding of `main`, `senderFunc` and `createDnstapPacket`.

* Go's `int` is the 64-bit two's-complement integer: values are `Int`s kept in
  `[minInt, maxInt]`, and every `++` wraps (`wrapInt`).  `/` and `%` truncate
  towards zero (`Int.tdiv`, `Int.tmod`).
* `runtime.GOMAXPROCS(0)` is the parameter `P`; the Go runtime keeps it in an
  `int32` and it is at least 1.
* A `for` loop is a function with a fuel argument: `none` means the fuel ran out
  before the loop left.
* The output channel is the list of the buffers sent on it.  The workers of the
  pooled mode all send the same buffer, so the order in which their sends
  interleave does not show in that list; the model runs them in spawn order.
* Wall-clock readings, the random DNS message id, the DNS wire packer, the
  zone-record reader and the protobuf serializer are inputs (`Env`, `Lib`).
* The elapsed time `runDuration` is an input, in nanoseconds.  A `float64` is a sign,
  a significand and an exponent (`F64`); conversion, sum and quotient round the exact
  result to the nearest value, ties to even, as IEEE 754 binary64 does.
-/

namespace Dtbench

/-! ## Machine integers -/

/-- Largest value of a Go `int` (64 bit). -/
def maxInt : Int := 2 ^ 63 - 1

/-- Smallest value of a Go `int` (64 bit). -/
def minInt : Int := -(2 ^ 63)

/-- Two's-complement wrap-around of an integer result into the range of `int`. -/
def wrapInt (x : Int) : Int := (x + 2 ^ 63) % 2 ^ 64 - 2 ^ 63

/-- Go's `x++` on an `int`. -/
def inc (x : Int) : Int := wrapInt (x + 1)

/-- Go's `a / b` on `int`s with `b ≠ 0`: the quotient truncated towards zero. -/
def goDiv (a b : Int) : Int := wrapInt (Int.tdiv a b)

/-- Go's `a % b` on `int`s with `b ≠ 0`: the remainder has the sign of `a`. -/
def goMod (a b : Int) : Int := wrapInt (Int.tmod a b)

/-! ## `fmt.Printf` -/

/-- An operand of `fmt.Printf`.  A `float64` operand carries its `%f` rendering,
a `time.Duration` operand is passed as the text of its `String()` method. -/
inductive Arg where
  | int (i : Int)
  | str (s : String)
  | float (rendered : String)

/-- The verb `%d` applied to an `int`: decimal digits, `-` in front of a negative. -/
def fmtInt (i : Int) : List Char := (toString i).toList

/-- The formatting loop of `fmt.Sprintf` for the verbs `%d`, `%s` and `%f`, each
consuming the next operand; every other character is copied. -/
def sprintfAux : List Char → List Arg → List Char
  | [], _ => []
  | [c], _ => [c]
  | c :: v :: rest, args =>
    if c = '%' then
      match v, args with
      | 'd', Arg.int i :: more => fmtInt i ++ sprintfAux rest more
      | 's', Arg.str s :: more => s.toList ++ sprintfAux rest more
      | 'f', Arg.float r :: more => r.toList ++ sprintfAux rest more
      | _, _ => c :: sprintfAux (v :: rest) args
    else c :: sprintfAux (v :: rest) args

/-- The text one `fmt.Printf(format, args...)` call writes to standard output. -/
def sprintf (format : String) (args : List Arg) : String :=
  String.mk (sprintfAux format.toList args)

/-! ## The senders -/

/-- A serialized dnstap payload. -/
abbrev Buf := List Nat

/-- Where a send loop stands: `running ch` when the fuel ran out inside the loop,
`done ch` when the loop has left; `ch` is the channel at that point. -/
inductive Sends where
  | running (ch : List Buf)
  | done (ch : List Buf)
deriving DecidableEq

/-- The loop `for attempt := 1; attempt <= attempts; attempt++ { outputChannel <- b }`
entered with the counter at `attempt`; `ch` is what has been sent so far. -/
def sendLoop : Nat → Int → Buf → Int → List Buf → Sends
  | 0, _, _, _, ch => Sends.running ch
  | fuel + 1, attempts, b, attempt, ch =>
    if attempt ≤ attempts then sendLoop fuel attempts b (inc attempt) (ch ++ [b])
    else Sends.done ch

/-- The function `senderFunc(wg, attempts, b, outputChannel)`: the state of the channel
when the worker is done, or when the fuel ran out. -/
def senderFunc (fuel : Nat) (attempts : Int) (b : Buf) (outputChannel : List Buf) :
    Sends :=
  sendLoop fuel attempts b 1 outputChannel

/-! ## The driver -/

/-- What the partition loop of `main` has done so far: the lines printed and, for
each `go senderFunc(wg, attempts, b, outputChannel)`, the value of `procNum` and the
argument `attempts`. -/
structure Dispatch where
  stdout : List String
  spawned : List (Int × Int)
deriving DecidableEq

/-- The value of `attempts` after `attempts := baseAttemptsPerWorker` and
`if procNum <= remainderAttempts { attempts++ }`. -/
def attemptsFor (baseAttemptsPerWorker remainderAttempts procNum : Int) : Int :=
  if procNum ≤ remainderAttempts then inc baseAttemptsPerWorker
  else baseAttemptsPerWorker

/-- The loop `for procNum := 1; procNum <= runtime.GOMAXPROCS(0); procNum++` of `main`,
entered with the counter at `procNum`. -/
def partitionLoop : Nat → Int → Int → Int → Int → Dispatch → Option Dispatch
  | 0, _, _, _, _, _ => none
  | fuel + 1, P, baseAttemptsPerWorker, remainderAttempts, procNum, st =>
    if procNum ≤ P then
      let attempts := attemptsFor baseAttemptsPerWorker remainderAttempts procNum
      if attempts > 0 then
        partitionLoop fuel P baseAttemptsPerWorker remainderAttempts (inc procNum)
          { stdout := st.stdout ++
              [sprintf "worker %d: %d attempts\n" [Arg.int procNum, Arg.int attempts]]
            spawned := st.spawned ++ [(procNum, attempts)] }
      else some st
    else some st

/-- The pooled branch of `main` up to `wg.Wait()`: the announcement, the two
divisions and the partition loop. -/
def dispatchWorkers (fuel : Nat) (nFlag P : Int) : Option Dispatch :=
  partitionLoop fuel P (goDiv nFlag P) (goMod nFlag P) 1
    { stdout := [sprintf "Starting multiple senders\n" []], spawned := [] }

/-- The workers spawned by the partition loop run to completion (`wg.Wait()`):
each one is `senderFunc` with its own `attempts`. -/
def runWorkers (fuel : Nat) (b : Buf) : List (Int × Int) → List Buf → Sends
  | [], ch => Sends.done ch
  | (_, attempts) :: rest, ch =>
    match senderFunc fuel attempts b ch with
    | Sends.running ch1 => Sends.running ch1
    | Sends.done ch1 => runWorkers fuel b rest ch1

/-- The share of worker `procNum` in the plan of `main`: the value of `attempts`
the body of the partition loop computes for it from `*nFlag` and `GOMAXPROCS(0)`. -/
def share (nFlag P procNum : Int) : Int :=
  attemptsFor (goDiv nFlag P) (goMod nFlag P) procNum

/-- A finished run of `main` from the start timestamp on. -/
structure Outcome where
  stdout : List String
  spawned : List (Int × Int)
  sent : List Buf
deriving DecidableEq

/-- The dispatch step of `main`: what is printed and which workers are spawned
before any wait.  Single mode prints its one line and spawns nothing. -/
def mainDispatch (fuel : Nat) (gFlag : Bool) (nFlag P : Int) : Option Dispatch :=
  if gFlag then dispatchWorkers fuel nFlag P
  else some { stdout := [sprintf "Starting single sender\n" []], spawned := [] }

/-- The sends of `main` before `dnstapOutput.Close()`: in pooled mode those of the
spawned workers, in single mode those of the loop
`for attempt := 1; attempt <= *nFlag; attempt++ { outputChannel <- b }`. -/
def mainSends (fuel : Nat) (gFlag : Bool) (nFlag : Int) (b : Buf) (d : Dispatch) :
    Sends :=
  if gFlag then runWorkers fuel b d.spawned []
  else sendLoop fuel nFlag b 1 []

/-- The last `Printf` of `main`.  `duration` stands for the text of `runDuration`
and `rate` for the `%f` rendering of `float64(*nFlag)/runDuration.Seconds()`. -/
def completionLine (nFlag : Int) (duration rate : String) : String :=
  sprintf "Sent %d packets, took %s (%f dnstap/sec)\n"
    [Arg.int nFlag, Arg.str duration, Arg.float rate]

/-- The measured region of `main` (from `startTime := time.Now()` to the last
`Printf`), for the payload `b`.  `sent` is what went into the output channel before
`dnstapOutput.Close()`. -/
def mainBody (fuel : Nat) (gFlag : Bool) (nFlag P : Int) (b : Buf)
    (duration rate : String) : Option Outcome :=
  match mainDispatch fuel gFlag nFlag P with
  | none => none
  | some d =>
    match mainSends fuel gFlag nFlag b d with
    | Sends.running _ => none
    | Sends.done ch =>
      some { stdout := d.stdout ++ [completionLine nFlag duration rate]
             spawned := d.spawned, sent := ch }

/-! ## Elapsed time and the rate -/

/-- A value of Go's `float64` (IEEE 754 binary64): `finite neg m e` is the number
`± m · 2 ^ e` (negative when `neg`), `inf neg` is `±Inf`, `nan` is a NaN. -/
inductive F64 where
  | finite (neg : Bool) (m : Nat) (e : Int)
  | inf (neg : Bool)
  | nan
deriving DecidableEq

/-- The number of binary digits of `n`, counted with `fuel` halvings. -/
def bitLength : Nat → Nat → Nat
  | 0, _ => 0
  | fuel + 1, n => if n = 0 then 0 else bitLength fuel (n / 2) + 1

/-- The number of binary digits of `n`: `2 ^ (bits n - 1) ≤ n < 2 ^ bits n` for `n > 0`. -/
def bits (n : Nat) : Nat := bitLength n n

/-- The integer nearest to `num / den`, a tie going to the even neighbour. -/
def roundHalfEven (num den : Nat) : Nat :=
  let k := num / den
  let r := num % den
  if 2 * r < den then k
  else if den < 2 * r then k + 1
  else if k % 2 = 0 then k else k + 1

/-- Numerator and denominator of `p / (q · 2 ^ e)`. -/
def scaled (p q : Nat) (e : Int) : Nat × Nat :=
  if 0 ≤ e then (p, q * 2 ^ e.toNat) else (p * 2 ^ (-e).toNat, q)

/-- The `float64` nearest to `± p / q` (`q > 0`), ties to even: a 53-bit significand
with the exponent of the least significant bit no lower than `-1074`; a result of
`2 ^ 1024` or more is an infinity. -/
def roundF64 (neg : Bool) (p q : Nat) : F64 :=
  if p = 0 then F64.finite neg 0 0
  else
    let e0 : Int := (bits p : Int) - (bits q : Int) - 53
    let s0 := scaled p q e0
    let e1 : Int := if s0.1 / s0.2 < 2 ^ 53 then e0 else e0 + 1
    let e : Int := max e1 (-1074)
    let s := scaled p q e
    let m := roundHalfEven s.1 s.2
    if (bits m : Int) + e > 1024 then F64.inf neg else F64.finite neg m e

/-- The conversion `float64(i)` of an `int`. -/
def f64ofInt (i : Int) : F64 := roundF64 (decide (i < 0)) i.natAbs 1

/-- The `float64` sum `a + b`. -/
def f64add : F64 → F64 → F64
  | F64.nan, _ => F64.nan
  | _, F64.nan => F64.nan
  | F64.inf s, F64.inf t => if s = t then F64.inf s else F64.nan
  | F64.inf s, F64.finite _ _ _ => F64.inf s
  | F64.finite _ _ _, F64.inf t => F64.inf t
  | F64.finite s m e, F64.finite t n f =>
    let g : Int := min e f
    let x : Int := (if s then -1 else 1) * ((m : Int) * 2 ^ (e - g).toNat)
    let y : Int := (if t then -1 else 1) * ((n : Int) * 2 ^ (f - g).toNat)
    let z : Int := x + y
    if z = 0 then F64.finite (s && t) 0 0
    else if 0 ≤ g then roundF64 (decide (z < 0)) (z.natAbs * 2 ^ g.toNat) 1
    else roundF64 (decide (z < 0)) z.natAbs (2 ^ (-g).toNat)

/-- The `float64` quotient `a / b`; a division by zero gives an infinity or a NaN. -/
def f64div : F64 → F64 → F64
  | F64.nan, _ => F64.nan
  | _, F64.nan => F64.nan
  | F64.inf _, F64.inf _ => F64.nan
  | F64.inf s, F64.finite t _ _ => F64.inf (xor s t)
  | F64.finite s _ _, F64.inf t => F64.finite (xor s t) 0 0
  | F64.finite s m e, F64.finite t n f =>
    if n = 0 then (if m = 0 then F64.nan else F64.inf (xor s t))
    else if e ≥ f then roundF64 (xor s t) (m * 2 ^ (e - f).toNat) n
    else roundF64 (xor s t) m (n * 2 ^ (f - e).toNat)

/-- The method `(d Duration).Seconds()` of package `time` on a duration of `d`
nanoseconds: `float64(sec) + float64(nsec)/1e9` with `sec := d / Second` and
`nsec := d % Second`. -/
def durationSeconds (d : Int) : F64 :=
  let sec := Int.tdiv d 1000000000
  let nsec := Int.tmod d 1000000000
  f64add (f64ofInt sec) (f64div (f64ofInt nsec) (F64.finite false 1000000000 0))

/-- The decimal digits of `n`, padded with zeros on the left to `width` digits. -/
def padLeft (width : Nat) (n : Nat) : List Char :=
  List.replicate (width - (toString n).length) '0' ++ (toString n).toList

/-- The verb `%f` applied to a `float64`: six digits after the decimal point, the
exact value rounded to nearest with ties to even, a `-` in front of a negative
value; `+Inf`, `-Inf` and `NaN` for the values that are no numbers. -/
def fmtFloat : F64 → String
  | F64.nan => "NaN"
  | F64.inf neg => if neg then "-Inf" else "+Inf"
  | F64.finite neg m e =>
    let s := scaled (m * 1000000) 1 (-e)
    let r := roundHalfEven s.1 s.2
    String.mk ((if neg then ['-'] else []) ++ (toString (r / 1000000)).toList ++
      ['.'] ++ padLeft 6 (r % 1000000))

/-- The function `fmtFrac` of package `time`: the digits of the fraction `v / 10^prec`
without its trailing zeros, behind a decimal point unless the fraction is zero, put
in front of `acc`; with them the integer part `v / 10^prec`. -/
def fmtFrac : Nat → Nat → Bool → List Char → List Char × Nat
  | 0, v, print, acc => (if print then '.' :: acc else acc, v)
  | prec + 1, v, print, acc =>
    let digit := v % 10
    let print1 := print || decide (digit ≠ 0)
    fmtFrac prec (v / 10) print1
      (if print1 then Char.ofNat (digit + '0'.toNat) :: acc else acc)

/-- The method `(d Duration).String()` of package `time` on a duration of `d`
nanoseconds, which the verb `%s` prints. -/
def durationString (d : Int) : String :=
  let u := d.natAbs
  let sign : List Char := if d < 0 then ['-'] else []
  if u < 1000000000 then
    if u = 0 then "0s"
    else if u < 1000 then
      String.mk (sign ++ (toString u).toList ++ ['n', 's'])
    else if u < 1000000 then
      let r := fmtFrac 3 u false ['µ', 's']
      String.mk (sign ++ (toString r.2).toList ++ r.1)
    else
      let r := fmtFrac 6 u false ['m', 's']
      String.mk (sign ++ (toString r.2).toList ++ r.1)
  else
    let r := fmtFrac 9 u false ['s']
    let secs := (toString (r.2 % 60)).toList ++ r.1
    let u1 := r.2 / 60
    if u1 > 0 then
      let mins := (toString (u1 % 60)).toList ++ ['m'] ++ secs
      let u2 := u1 / 60
      if u2 > 0 then String.mk (sign ++ (toString u2).toList ++ ['h'] ++ mins)
      else String.mk (sign ++ mins)
    else String.mk (sign ++ secs)

/-- The third operand of the last `Printf` of `main`:
`float64(*nFlag)/runDuration.Seconds()`, for a `runDuration` of that many nanoseconds. -/
def rateOperand (nFlag runDuration : Int) : F64 :=
  f64div (f64ofInt nFlag) (durationSeconds runDuration)

/-- The measured region of `main` for the reading `runDuration := time.Since(startTime)`
(in nanoseconds): the last `Printf` gets `*nFlag`, `runDuration`, which `%s` prints
through its `String()` method, and `float64(*nFlag)/runDuration.Seconds()`, which
`%f` prints. -/
def mainMeasured (fuel : Nat) (gFlag : Bool) (nFlag P : Int) (b : Buf)
    (runDuration : Int) : Option Outcome :=
  mainBody fuel gFlag nFlag P b (durationString runDuration)
    (fmtFloat (rateOperand nFlag runDuration))

/-! ## The payload builder -/

/-- The field loop of `netip.ParseAddr` for dotted-quad text: `prev` is the character
before the current one, `val` and `digLen` describe the octet being read, `fields`
holds the octets already closed by a dot. -/
def parseIPv4Fields : List Char → Option Char → Nat → Nat → List Nat → Option (List Nat)
  | [], _, val, _, fields => if fields.length < 3 then none else some (fields ++ [val])
  | c :: rest, prev, val, digLen, fields =>
    if '0' ≤ c ∧ c ≤ '9' then
      if digLen = 1 ∧ val = 0 then none
      else
        let val1 := val * 10 + (c.toNat - '0'.toNat)
        if val1 > 255 then none
        else parseIPv4Fields rest (some c) val1 (digLen + 1) fields
    else if c = '.' then
      if prev = none ∨ rest = [] ∨ prev = some '.' then none
      else if fields.length = 3 then none
      else parseIPv4Fields rest (some c) 0 0 (fields ++ [val])
    else none

/-- The dispatch of `netip.ParseAddr` on the first `.`, `:` or `%` of the text.  Only
the IPv4 branch is modelled: the two literals `createDnstapPacket` parses contain no
`:`. -/
def ParseAddr (s : String) : Option (List Nat) :=
  match s.toList.find? (fun c => c = '.' ∨ c = ':' ∨ c = '%') with
  | some '.' => parseIPv4Fields s.toList none 0 0 []
  | _ => none

/-- The values of `dnstap.Dnstap_Type`. -/
inductive DnstapType where
  | MESSAGE
deriving DecidableEq

/-- The values of `dnstap.SocketFamily`. -/
inductive SocketFamily where
  | INET
  | INET6
deriving DecidableEq

/-- The values of `dnstap.SocketProtocol`. -/
inductive SocketProtocol where
  | UDP
  | TCP
  | DOT
  | DOH
  | DNSCryptUDP
  | DNSCryptTCP
  | DOQ
deriving DecidableEq

/-- The values of `dnstap.Message_Type`. -/
inductive MessageType where
  | AUTH_QUERY
  | AUTH_RESPONSE
  | RESOLVER_QUERY
  | RESOLVER_RESPONSE
  | CLIENT_QUERY
  | CLIENT_RESPONSE
  | FORWARDER_QUERY
  | FORWARDER_RESPONSE
  | STUB_QUERY
  | STUB_RESPONSE
  | TOOL_QUERY
  | TOOL_RESPONSE
  | UPDATE_QUERY
  | UPDATE_RESPONSE
deriving DecidableEq

/-- The fields of `dnstap.Message` that `createDnstapPacket` can set; `none` is an
unset field. -/
structure Message where
  type : Option MessageType := none
  socketFamily : Option SocketFamily := none
  socketProtocol : Option SocketProtocol := none
  queryAddress : Option Buf := none
  responseAddress : Option Buf := none
  queryPort : Option Nat := none
  responsePort : Option Nat := none
  queryTimeSec : Option Nat := none
  queryTimeNsec : Option Nat := none
  responseTimeSec : Option Nat := none
  responseTimeNsec : Option Nat := none
  queryMessage : Option Buf := none
  responseMessage : Option Buf := none
deriving DecidableEq

/-- The envelope `dnstap.Dnstap`: its type tag and its message. -/
structure Dnstap where
  type : Option DnstapType := none
  message : Option Message := none
deriving DecidableEq

/-- A `dns.Question`. -/
structure Question where
  name : String
  qtype : Nat
  qclass : Nat
deriving DecidableEq

/-- The header bits and sections of a `dns.Msg` that `SetQuestion` and `SetReply`
touch; `answer` holds resource records of the type `RR` of the library. -/
structure Msg (RR : Type) where
  id : Nat := 0
  response : Bool := false
  opcode : Nat := 0
  recursionDesired : Bool := false
  checkingDisabled : Bool := false
  rcode : Nat := 0
  question : List Question := []
  answer : List RR := []

/-- The constant `dns.TypeA`. -/
def TypeA : Nat := 1

/-- The constant `dns.ClassINET`. -/
def ClassINET : Nat := 1

/-- The constant `dns.OpcodeQuery`. -/
def OpcodeQuery : Nat := 0

/-- The constant `dns.RcodeSuccess`. -/
def RcodeSuccess : Nat := 0

/-- The method `(*dns.Msg).SetQuestion(z, t)`; `id` is the identifier `dns.Id()` draws. -/
def Msg.SetQuestion {RR : Type} (m : Msg RR) (id : Nat) (z : String) (t : Nat) : Msg RR :=
  { m with id := id, recursionDesired := true, question := [⟨z, t, ClassINET⟩] }

/-- The method `(*dns.Msg).SetReply(request)`. -/
def Msg.SetReply {RR : Type} (m : Msg RR) (request : Msg RR) : Msg RR :=
  let m1 := { m with id := request.id, response := true, opcode := request.opcode }
  let m2 :=
    if m1.opcode = OpcodeQuery then
      { m1 with recursionDesired := request.recursionDesired
                checkingDisabled := request.checkingDisabled }
    else m1
  let m3 := { m2 with rcode := RcodeSuccess }
  match request.question with
  | [] => m3
  | q :: _ => { m3 with question := [q] }

/-- The library calls whose results `createDnstapPacket` only passes on: `dns.Fqdn`,
`(*dns.Msg).Pack`, `dns.NewRR` and `proto.Marshal`.  `none` is a returned error.  Each
is a function of its argument: `Pack` reads the message and leaves it as it is, so
the two `queryMsg.Pack()` calls return the same bytes. -/
structure Lib where
  RR : Type
  Fqdn : String → String
  Pack : Msg RR → Option Buf
  NewRR : String → Option RR
  Marshal : Dnstap → Option Buf

/-- What `createDnstapPacket` reads from its surroundings: the two clock readings
(`Unix()` seconds and `Nanosecond()`) and the identifier `SetQuestion` draws. -/
structure Env where
  queryUnix : Int
  queryNanosecond : Int
  responseUnix : Int
  responseNanosecond : Int
  msgId : Nat

/-- The message `queryMsg` of `createDnstapPacket` after `SetQuestion`. -/
def queryMsg (lib : Lib) (env : Env) (qname : String) : Msg lib.RR :=
  Msg.SetQuestion {} env.msgId (lib.Fqdn qname) TypeA

/-- The message `responseMsg` of `createDnstapPacket` after `SetReply` and the
assignment of `Answer`. -/
def responseMsg (lib : Lib) (env : Env) (qname : String) (aRR : lib.RR) : Msg lib.RR :=
  { Msg.SetReply {} (queryMsg lib env qname) with answer := [aRR] }

/-- The body of `createDnstapPacket` up to the envelope `dt` handed to
`proto.Marshal`; `none` is a `log.Fatal`. -/
def createDnstapEnvelope (lib : Lib) (env : Env) (response : Bool) (qname : String) :
    Option Dnstap := do
  let dnstapType := DnstapType.MESSAGE
  let queryAddr ← ParseAddr "198.51.100.2"
  let responseAddr ← ParseAddr "198.51.100.3"
  let socketFamily := SocketFamily.INET
  let socketProtocol := SocketProtocol.UDP
  let queryPort : Nat := 31337 % 2 ^ 32
  let responsePort : Nat := 53 % 2 ^ 32
  let queryTimeSec := (env.queryUnix % 2 ^ 64).toNat
  let queryTimeNsec := (env.queryNanosecond % 2 ^ 32).toNat
  let responseTimeSec := (env.responseUnix % 2 ^ 64).toNat
  let responseTimeNsec := (env.responseNanosecond % 2 ^ 32).toNat
  let queryMsg := queryMsg lib env qname
  let queryBytes ← lib.Pack queryMsg
  let responseBytes ←
    if response then do
      let aRR ← lib.NewRR "example.com. 3600 IN A 198.51.100.4"
      let _responseMsg := responseMsg lib env qname aRR
      let responseBytes ← lib.Pack queryMsg
      pure (some responseBytes)
    else pure none
  let dnstapMessage : Message :=
    { socketFamily := some socketFamily
      socketProtocol := some socketProtocol
      queryAddress := some queryAddr
      responseAddress := some responseAddr
      queryPort := some queryPort
      responsePort := some responsePort
      queryTimeSec := some queryTimeSec
      queryTimeNsec := some queryTimeNsec
      responseTimeSec := some responseTimeSec
      responseTimeNsec := some responseTimeNsec }
  let dnstapMessage : Message :=
    if response then
      { dnstapMessage with type := some MessageType.CLIENT_RESPONSE
                           responseMessage := responseBytes }
    else
      { dnstapMessage with type := some MessageType.CLIENT_QUERY
                           queryMessage := some queryBytes }
  pure { type := some dnstapType, message := some dnstapMessage }

/-- The function `createDnstapPacket(response, qname)`: the envelope, serialized by
`proto.Marshal`;
`none` is a `log.Fatal`. -/
def createDnstapPacket (lib : Lib) (env : Env) (response : Bool) (qname : String) :
    Option Buf :=
  match createDnstapEnvelope lib env response qname with
  | none => none
  | some dt => lib.Marshal dt

/-! ## The whole program -/

/-- How a run of `main` ends. -/
inductive Run where
  | fatal
  | outOfFuel
  | finished (o : Outcome)
deriving DecidableEq

/-- The function `main` from the one call `b := createDnstapPacket(*rFlag, *qFlag)` on:
the payload is built once and handed to the measured region. -/
def main (lib : Lib) (env : Env) (fuel : Nat) (rFlag : Bool) (qFlag : String)
    (gFlag : Bool) (nFlag P : Int) (duration rate : String) : Run :=
  match createDnstapPacket lib env rFlag qFlag with
  | none => Run.fatal
  | some b =>
    match mainBody fuel gFlag nFlag P b duration rate with
    | none => Run.outOfFuel
    | some o => Run.finished o

/-- A stand-in library for concrete runs: resource records are their zone text, a
message is packed to its identifier, its response bit, the number of its answers and
the UTF-8 length of each question name, an envelope is marshalled to the tag of its
message type followed by the nested message. -/
def sampleLib : Lib where
  RR := String
  Fqdn := fun s => if s.toList.getLast? = some '.' then s else s ++ "."
  Pack := fun m =>
    some (m.id :: (if m.response then 1 else 0) :: m.answer.length ::
      m.question.map fun q => q.name.length)
  NewRR := fun s => some s
  Marshal := fun dt =>
    match dt.message with
    | none => none
    | some m =>
      some ((if m.type = some MessageType.CLIENT_RESPONSE then 6 else 5) ::
        ((m.queryMessage.getD []) ++ (m.responseMessage.getD [])))

/-- Clock readings and message identifier for concrete runs. -/
def sampleEnv : Env :=
  { queryUnix := 1700000000, queryNanosecond := 5, responseUnix := 1700000000,
    responseNanosecond := 9, msgId := 4660 }

/-! ## Reference descriptions used in the statements -/

/-- The line `worker <i>: <k> attempts` for the pair `(i, k)`, with its newline. -/
def workerLine (w : Int × Int) : String :=
  "worker " ++ toString w.1 ++ ": " ++ toString w.2 ++ " attempts\n"

/-- The pairs `(i, k)` for the `n` consecutive indices `i = s, s+1, ...`, where `k` is
`q + 1` if `i ≤ r` and `q` otherwise. -/
def planFrom (q r s : Int) (n : Nat) : List (Int × Int) :=
  (List.range n).map fun (j : Nat) => (s + (j : Int), if s + (j : Int) ≤ r then q + 1 else q)

/-- The worker plan for the total `N` and `P` workers, cut after the `min N P` workers
with a non-empty share: worker `i` gets `N / P + 1` records if `i ≤ N % P`, else `N / P`. -/
def plan (N P : Int) : List (Int × Int) :=
  planFrom (N / P) (N % P) 1 (min N P).toNat

/-- The completion line as the specification words it:
`Sent <N> packets, took <duration>, (<rate> dnstap/sec)`. -/
def specCompletionLine (N : Int) (duration rate : String) : String :=
  "Sent " ++ toString N ++ " packets, took " ++ duration ++ ", (" ++ rate ++ " dnstap/sec)\n"

/-- The message body of the envelope for the clock readings of `env`, the variant
`response` and the packed query message `wq`. -/
def expectedMessage (env : Env) (response : Bool) (wq : Buf) : Message :=
  { type := some (if response then MessageType.CLIENT_RESPONSE else MessageType.CLIENT_QUERY)
    socketFamily := some SocketFamily.INET
    socketProtocol := some SocketProtocol.UDP
    queryAddress := some [198, 51, 100, 2]
    responseAddress := some [198, 51, 100, 3]
    queryPort := some 31337
    responsePort := some 53
    queryTimeSec := some (env.queryUnix % 2 ^ 64).toNat
    queryTimeNsec := some (env.queryNanosecond % 2 ^ 32).toNat
    responseTimeSec := some (env.responseUnix % 2 ^ 64).toNat
    responseTimeNsec := some (env.responseNanosecond % 2 ^ 32).toNat
    queryMessage := if response then none else some wq
    responseMessage := if response then some wq else none }

/-- The number `± m · 2 ^ e` a finite `float64` stands for; 0 for the others. -/
def F64.value : F64 → ℚ
  | F64.finite neg m e => (if neg then -1 else 1) * ((m : ℚ) * (2 : ℚ) ^ e)
  | _ => 0

/-! ## Arithmetic of the machine integers -/

theorem wrapInt_of_range {x : Int} (h1 : minInt ≤ x) (h2 : x ≤ maxInt) : wrapInt x = x := by
  unfold wrapInt
  unfold minInt at h1
  unfold maxInt at h2
  have h : (x + 2 ^ 63) % 2 ^ 64 = x + 2 ^ 63 := Int.emod_eq_of_lt (by omega) (by omega)
  omega

theorem inc_of_lt {x : Int} (h1 : minInt ≤ x) (h2 : x < maxInt) : inc x = x + 1 := by
  unfold inc
  apply wrapInt_of_range
  · unfold minInt at *; omega
  · omega

theorem wrapInt_range (x : Int) : minInt ≤ wrapInt x ∧ wrapInt x ≤ maxInt := by
  unfold wrapInt minInt maxInt
  have h1 : 0 ≤ (x + 2 ^ 63) % 2 ^ 64 := Int.emod_nonneg _ (by norm_num)
  have h2 : (x + 2 ^ 63) % 2 ^ 64 < 2 ^ 64 := Int.emod_lt_of_pos _ (by norm_num)
  omega

theorem goDiv_of_nonneg {N P : Int} (hN : 0 ≤ N) (hN2 : N ≤ maxInt) (hP : 1 ≤ P) :
    goDiv N P = N / P := by
  unfold goDiv
  rw [Int.tdiv_eq_ediv hN (by omega)]
  have h0 : 0 ≤ N / P := Int.ediv_nonneg hN (by omega)
  have h1 : N / P ≤ N := Int.ediv_le_self _ hN
  apply wrapInt_of_range
  · unfold minInt; omega
  · omega

theorem goMod_of_nonneg {N P : Int} (hN : 0 ≤ N) (hP : 1 ≤ P) (hP2 : P ≤ maxInt) :
    goMod N P = N % P := by
  unfold goMod
  rw [Int.tmod_eq_emod hN (by omega)]
  have h0 : 0 ≤ N % P := Int.emod_nonneg _ (by omega)
  have h1 : N % P < P := Int.emod_lt_of_pos _ (by omega)
  apply wrapInt_of_range
  · unfold minInt; omega
  · omega

/-! ## The print statements -/

theorem sprintf_worker (i k : Int) :
    sprintf "worker %d: %d attempts\n" [Arg.int i, Arg.int k] = workerLine (i, k) := by
  apply String.ext
  simp [sprintf, sprintfAux, fmtInt, workerLine]

theorem sprintf_multiple : sprintf "Starting multiple senders\n" [] =
    "Starting multiple senders\n" := by decide

theorem sprintf_single : sprintf "Starting single sender\n" [] =
    "Starting single sender\n" := by decide

theorem completionLine_eq (N : Int) (duration rate : String) :
    completionLine N duration rate =
      "Sent " ++ toString N ++ " packets, took " ++ duration ++ " (" ++ rate ++
        " dnstap/sec)\n" := by
  apply String.ext
  simp [completionLine, sprintf, sprintfAux, fmtInt]

/-! ## The partition loop -/

theorem planFrom_zero (q r s : Int) : planFrom q r s 0 = [] := rfl

theorem planFrom_succ (q r s : Int) (n : Nat) :
    planFrom q r s (n + 1) = (s, if s ≤ r then q + 1 else q) :: planFrom q r (s + 1) n := by
  unfold planFrom
  rw [List.range_succ_eq_map]
  simp only [List.map_cons, List.map_map, Nat.cast_zero, add_zero]
  congr 1
  apply List.map_congr_left
  intro j _
  have h : s + ((j : Int) + 1) = s + 1 + (j : Int) := by ring
  simp [h]

/-- The loop started at `s` announces and spawns the workers `s, s+1, ..., m`, where
`m` is `P` when the base share is positive and `r` when it is zero, and stops. -/
theorem partitionLoop_run (P q r : Int) (hP : P < maxInt) (hq0 : 0 ≤ q)
    (hq : r ≤ 0 ∨ q < maxInt) (hr0 : 0 ≤ r) (hr : r < P) :
    ∀ (k fuel : Nat) (s : Int) (st : Dispatch), 1 ≤ s →
      s + (k : Int) = (if 0 < q then P else r) + 1 → k < fuel →
      partitionLoop fuel P q r s st =
        some { stdout := st.stdout ++ (planFrom q r s k).map workerLine
               spawned := st.spawned ++ planFrom q r s k } := by
  intro k
  induction k with
  | zero =>
    intro fuel s st hs hk hf
    obtain ⟨f, rfl⟩ : ∃ f, fuel = f + 1 := ⟨fuel - 1, by omega⟩
    simp only [planFrom_zero, List.map_nil, List.append_nil]
    unfold partitionLoop
    by_cases hqp : 0 < q
    · simp only [hqp, if_true] at hk
      have : ¬ s ≤ P := by push_cast at hk; omega
      simp [this]
    · simp only [hqp, if_false] at hk
      have hq1 : q = 0 := by omega
      have h1 : s ≤ P := by push_cast at hk; omega
      have h2 : ¬ s ≤ r := by push_cast at hk; omega
      simp [h1, attemptsFor, h2, hq1]
  | succ k ih =>
    intro fuel s st hs hk hf
    obtain ⟨f, rfl⟩ : ∃ f, fuel = f + 1 := ⟨fuel - 1, by omega⟩
    have hsm : s ≤ (if 0 < q then P else r) := by push_cast at hk; omega
    have hsP : s ≤ P := by
      by_cases hqp : 0 < q
      · simpa [hqp] using hsm
      · simp only [hqp, if_false] at hsm; omega
    have hatt : attemptsFor q r s = (if s ≤ r then q + 1 else q) := by
      unfold attemptsFor
      by_cases hsr : s ≤ r
      · simp only [hsr, if_true]
        apply inc_of_lt
        · unfold minInt; omega
        · omega
      · simp [hsr]
    have hpos : (if s ≤ r then q + 1 else q) > 0 := by
      by_cases hsr : s ≤ r
      · simp only [hsr, if_true]; omega
      · simp only [hsr, if_false]
        by_cases hqp : 0 < q
        · exact hqp
        · simp only [hqp, if_false] at hsm; omega
    have hinc : inc s = s + 1 := inc_of_lt (by unfold minInt; omega) (by omega)
    unfold partitionLoop
    simp only [hsP, if_true, hatt, hpos, hinc, sprintf_worker]
    rw [ih f (s + 1) _ (by omega) (by push_cast at hk ⊢; omega) (by omega)]
    simp [planFrom_succ]

theorem base_lt_maxInt {N P : Int} (hN : 0 ≤ N) (hN2 : N ≤ maxInt) (hP : 1 ≤ P) :
    N % P ≤ 0 ∨ N / P < maxInt := by
  by_cases h1 : P = 1
  · left; subst h1; simp
  · right
    have h2 : N / P * P ≤ N := Int.ediv_mul_le N (by omega)
    have h0 : 0 ≤ N / P := Int.ediv_nonneg hN (by omega)
    have h3 : N / P * 2 ≤ N / P * P := mul_le_mul_of_nonneg_left (by omega) h0
    unfold maxInt at *
    omega

theorem last_spawned {N P : Int} (hN : 0 ≤ N) (hP : 1 ≤ P) :
    (if 0 < N / P then P else N % P) = min N P := by
  have hdm : P * (N / P) + N % P = N := Int.ediv_add_emod N P
  have hr0 : 0 ≤ N % P := Int.emod_nonneg _ (by omega)
  have hr : N % P < P := Int.emod_lt_of_pos _ (by omega)
  have hq0 : 0 ≤ N / P := Int.ediv_nonneg hN (by omega)
  by_cases hq : 0 < N / P
  · have : P * 1 ≤ P * (N / P) := mul_le_mul_of_nonneg_left (by omega) (by omega)
    simp only [hq, if_true]
    omega
  · have hq1 : N / P = 0 := by omega
    rw [hq1] at hdm
    simp only [hq, if_false]
    simp at hdm
    omega

/-- The pooled dispatch of a non-negative total: the announcement, then the workers
of `plan N P`, each announced and spawned with its share. -/
theorem dispatchWorkers_eq (N P : Int) (fuel : Nat) (hN : 0 ≤ N) (hN2 : N ≤ maxInt)
    (hP : 1 ≤ P) (hP2 : P < maxInt) (hf : P < (fuel : Int)) :
    dispatchWorkers fuel N P =
      some { stdout := "Starting multiple senders\n" :: (plan N P).map workerLine
             spawned := plan N P } := by
  unfold dispatchWorkers
  rw [goDiv_of_nonneg hN hN2 hP, goMod_of_nonneg hN hP (by omega), sprintf_multiple]
  have hr0 : 0 ≤ N % P := Int.emod_nonneg _ (by omega)
  have hr : N % P < P := Int.emod_lt_of_pos _ (by omega)
  have hq0 : 0 ≤ N / P := Int.ediv_nonneg hN (by omega)
  rw [partitionLoop_run P (N / P) (N % P) hP2 hq0 (base_lt_maxInt hN hN2 hP) hr0 hr
    (min N P).toNat fuel 1 _ (by omega)
    (by rw [last_spawned hN hP, Int.toNat_of_nonneg (by omega)]; ring) (by omega)]
  simp [plan]

theorem sum_planFrom (q r : Int) : ∀ (k : Nat) (s : Int),
    ((planFrom q r s k).map Prod.snd).sum = k * q + max 0 (min (k : Int) (r - s + 1)) := by
  intro k
  induction k with
  | zero => intro s; simp [planFrom_zero]
  | succ k ih =>
    intro s
    rw [planFrom_succ, List.map_cons, List.sum_cons, ih (s + 1)]
    push_cast
    rw [add_mul]
    by_cases hs : s ≤ r
    · simp only [hs, if_true]; omega
    · simp only [hs, if_false]; omega

theorem sum_plan {N P : Int} (hN : 0 ≤ N) (hP : 1 ≤ P) :
    ((plan N P).map Prod.snd).sum = N := by
  unfold plan
  rw [sum_planFrom, Int.toNat_of_nonneg (by omega)]
  have hdm : P * (N / P) + N % P = N := Int.ediv_add_emod N P
  have hr0 : 0 ≤ N % P := Int.emod_nonneg _ (by omega)
  have hr : N % P < P := Int.emod_lt_of_pos _ (by omega)
  have hq0 : 0 ≤ N / P := Int.ediv_nonneg hN (by omega)
  have hl := last_spawned hN hP
  by_cases hq : 0 < N / P
  · simp only [hq, if_true] at hl
    rw [← hl]
    have : P * (N / P) = P * (N / P) := rfl
    omega
  · have hq1 : N / P = 0 := by omega
    simp only [hq, if_false] at hl
    rw [← hl, hq1]
    rw [hq1] at hdm
    simp at hdm
    omega

/-- C1: in pooled mode, for every total `N ≥ 0` and every worker count `P ≥ 1`, the
partition loop terminates and the `attempts` arguments of the workers it spawns sum
to exactly `N`. -/
theorem spawned_shares_sum (N P : Int) (fuel : Nat) (hN : 0 ≤ N) (hN2 : N ≤ maxInt)
    (hP : 1 ≤ P) (hP2 : P < maxInt) (hf : P < (fuel : Int)) :
    ∃ d, dispatchWorkers fuel N P = some d ∧ (d.spawned.map Prod.snd).sum = N :=
  ⟨_, dispatchWorkers_eq N P fuel hN hN2 hP hP2 hf, sum_plan hN hP⟩

theorem spawned_shares_sum_witness :
    ∃ d, dispatchWorkers 5 10 4 = some d ∧ (d.spawned.map Prod.snd).sum = 10 :=
  spawned_shares_sum 10 4 5 (by decide) (by decide) (by decide) (by decide) (by decide)

theorem share_eq {N P i : Int} (hN : 0 ≤ N) (hN2 : N ≤ maxInt) (hP : 1 ≤ P)
    (hP2 : P ≤ maxInt) (hi : 1 ≤ i) :
    share N P i = if i ≤ N % P then N / P + 1 else N / P := by
  unfold share attemptsFor
  rw [goDiv_of_nonneg hN hN2 hP, goMod_of_nonneg hN hP hP2]
  have hq0 : 0 ≤ N / P := Int.ediv_nonneg hN (by omega)
  by_cases h : i ≤ N % P
  · simp only [h, if_true]
    apply inc_of_lt
    · unfold minInt; omega
    · rcases base_lt_maxInt hN hN2 hP with h1 | h1
      · omega
      · exact h1
  · simp [h]

theorem share_pos_iff {N P : Int} (hN : 0 ≤ N) (hN2 : N ≤ maxInt) (hP : 1 ≤ P)
    (hP2 : P ≤ maxInt) (j : Nat) :
    0 < share N P ((j : Int) + 1) ↔ (j : Int) < N ∨ 0 < N / P := by
  rw [share_eq hN hN2 hP hP2 (by omega)]
  have hdm : P * (N / P) + N % P = N := Int.ediv_add_emod N P
  have hr0 : 0 ≤ N % P := Int.emod_nonneg _ (by omega)
  have hq0 : 0 ≤ N / P := Int.ediv_nonneg hN (by omega)
  by_cases hq : 0 < N / P
  · have h1 : 0 < (if (j : Int) + 1 ≤ N % P then N / P + 1 else N / P) := by
      split <;> omega
    simp [hq, h1]
  · have hq1 : N / P = 0 := by omega
    rw [hq1] at hdm
    simp only [mul_zero, zero_add] at hdm
    rw [hq1, hdm]
    by_cases h : (j : Int) + 1 ≤ N
    · simp only [h, if_true]; omega
    · simp only [h, if_false]; omega

theorem filter_lt_range (m : Nat) : ∀ n : Nat,
    (List.range n).filter (fun j => decide (j < m)) = List.range (min m n) := by
  intro n
  induction n with
  | zero => simp
  | succ n ih =>
    rw [List.range_succ, List.filter_append, ih]
    by_cases h : n < m
    · have h1 : min m n = n := by omega
      have h2 : min m (n + 1) = n + 1 := by omega
      rw [h1, h2, List.range_succ]
      simp [h]
    · have h1 : min m (n + 1) = min m n := by omega
      rw [h1]
      simp [h]

/-- The plan lists the workers `1, ..., min N P`, each with the share the loop body
computes for it. -/
theorem plan_eq_map_share {N P : Int} (hN : 0 ≤ N) (hN2 : N ≤ maxInt) (hP : 1 ≤ P)
    (hP2 : P ≤ maxInt) :
    plan N P =
      (List.range (min N P).toNat).map fun (j : Nat) =>
        ((j : Int) + 1, share N P ((j : Int) + 1)) := by
  unfold plan planFrom
  apply List.map_congr_left
  intro j _
  rw [share_eq hN hN2 hP hP2 (by omega)]
  have h1 : (1 : Int) + (j : Int) = (j : Int) + 1 := by ring
  rw [h1]

/-- The workers spawned for a non-negative total are the workers of the full
`P`-worker plan whose share is positive, in index order. -/
theorem plan_eq_filter {N P : Int} (hN : 0 ≤ N) (hN2 : N ≤ maxInt) (hP : 1 ≤ P)
    (hP2 : P ≤ maxInt) :
    plan N P =
      ((List.range P.toNat).map fun (j : Nat) => ((j : Int) + 1, share N P ((j : Int) + 1))).filter
        fun w => decide (0 < w.2) := by
  have hq0 : 0 ≤ N / P := Int.ediv_nonneg hN (by omega)
  have hqP : 0 < N / P → P ≤ N := by
    intro hq
    have h1 : P * 1 ≤ P * (N / P) := mul_le_mul_of_nonneg_left (by omega) (by omega)
    have h2 : P * (N / P) + N % P = N := Int.ediv_add_emod N P
    have h3 : 0 ≤ N % P := Int.emod_nonneg _ (by omega)
    omega
  rw [List.filter_map]
  have hf : (List.range P.toNat).filter
        ((fun w : Int × Int => decide (0 < w.2)) ∘
          fun (j : Nat) => ((j : Int) + 1, share N P ((j : Int) + 1))) =
      (List.range P.toNat).filter (fun j => decide (j < (min N P).toNat)) := by
    apply List.filter_congr
    intro j hj
    rw [List.mem_range] at hj
    have hjP : (j : Int) < P := by omega
    simp only [Function.comp, decide_eq_decide]
    rw [share_pos_iff hN hN2 hP hP2 j]
    constructor
    · rintro (h | h)
      · omega
      · have := hqP h; omega
    · intro h; left; omega
  rw [hf, filter_lt_range]
  have hmin : min (min N P).toNat P.toNat = (min N P).toNat := by omega
  rw [hmin, plan_eq_map_share hN hN2 hP hP2]

/-- C3: in pooled mode, for every `N ≥ 0` and `P ≥ 1`, the share the partition loop
computes for worker `i` (`1 ≤ i ≤ P`) is `N div P + 1` if `i ≤ N mod P` and `N div P`
otherwise, and the loop terminates having spawned exactly the workers of the
`P`-worker plan whose share is greater than zero, each with its share, in index
order (so the early `break` skips no worker with a positive share). -/
theorem spawned_iff_share_pos (N P : Int) (fuel : Nat) (hN : 0 ≤ N) (hN2 : N ≤ maxInt)
    (hP : 1 ≤ P) (hP2 : P < maxInt) (hf : P < (fuel : Int)) :
    (∀ i : Int, 1 ≤ i → i ≤ P →
      share N P i = if i ≤ N % P then N / P + 1 else N / P) ∧
    ∃ d, dispatchWorkers fuel N P = some d ∧
      d.spawned =
        ((List.range P.toNat).map fun (j : Nat) =>
          ((j : Int) + 1, share N P ((j : Int) + 1))).filter fun w => decide (0 < w.2) :=
  ⟨fun _ hi _ => share_eq hN hN2 hP (by omega) hi,
    _, dispatchWorkers_eq N P fuel hN hN2 hP hP2 hf, plan_eq_filter hN hN2 hP (by omega)⟩

theorem spawned_iff_share_pos_witness :
    (∀ i : Int, 1 ≤ i → i ≤ 4 →
      share 10 4 i = if i ≤ 10 % 4 then 10 / 4 + 1 else 10 / 4) ∧
    ∃ d, dispatchWorkers 5 10 4 = some d ∧
      d.spawned =
        ((List.range (4 : Int).toNat).map fun (j : Nat) =>
          ((j : Int) + 1, share 10 4 ((j : Int) + 1))).filter fun w => decide (0 < w.2) :=
  spawned_iff_share_pos 10 4 5 (by decide) (by decide) (by decide) (by decide) (by decide)

/-- C5: in pooled mode, for every `N` and `P` with `0 ≤ N ≤ P`, the partition loop
terminates having spawned exactly the workers `1, ..., N`, each with share 1, and
none of the workers `N+1, ..., P`: no worker for `N = 0`, all `P` workers for `N = P`. -/
theorem small_total_spawns_first (N P : Int) (fuel : Nat) (hN : 0 ≤ N) (hNP : N ≤ P)
    (hP : 1 ≤ P) (hP2 : P < maxInt) (hf : P < (fuel : Int)) :
    ∃ d, dispatchWorkers fuel N P = some d ∧
      d.spawned = (List.range N.toNat).map fun (j : Nat) => ((j : Int) + 1, (1 : Int)) := by
  refine ⟨_, dispatchWorkers_eq N P fuel hN (by omega) hP hP2 hf, ?_⟩
  show plan N P = _
  unfold plan planFrom
  have hmin : min N P = N := by omega
  rw [hmin]
  apply List.map_congr_left
  intro j hj
  rw [List.mem_range] at hj
  have h1 : (1 : Int) + (j : Int) = (j : Int) + 1 := by ring
  rw [h1]
  rcases eq_or_lt_of_le hNP with h | h
  · subst h
    have hq : N / N = 1 := Int.ediv_self (by omega)
    have hr : N % N = 0 := Int.emod_self
    rw [hq, hr]
    have : ¬ ((j : Int) + 1 ≤ 0) := by omega
    simp [this]
  · have hq : N / P = 0 := Int.ediv_eq_zero_of_lt hN h
    have hr : N % P = N := Int.emod_eq_of_lt hN h
    rw [hq, hr]
    have : (j : Int) + 1 ≤ N := by omega
    simp [this]

theorem small_total_spawns_first_witness :
    ∃ d, dispatchWorkers 5 3 4 = some d ∧
      d.spawned =
        (List.range (3 : Int).toNat).map fun (j : Nat) => ((j : Int) + 1, (1 : Int)) :=
  small_total_spawns_first 3 4 5 (by decide) (by decide) (by decide) (by decide) (by decide)

theorem floor_div_eq {N P : Int} (hP : 1 ≤ P) : ⌊(N : ℚ) / (P : ℚ)⌋ = N / P := by
  have hPq : (0 : ℚ) < (P : ℚ) := by exact_mod_cast (by omega : (0 : Int) < P)
  have hdm : P * (N / P) + N % P = N := Int.ediv_add_emod N P
  have hr0 : 0 ≤ N % P := Int.emod_nonneg _ (by omega)
  have hr : N % P < P := Int.emod_lt_of_pos _ (by omega)
  rw [Int.floor_eq_iff]
  constructor
  · rw [le_div_iff₀ hPq]
    have h : N / P * P ≤ N := by linarith [mul_comm (N / P) P]
    exact_mod_cast h
  · rw [div_lt_iff₀ hPq]
    have h : N < (N / P + 1) * P := by linarith [mul_comm (N / P) P]
    exact_mod_cast h

theorem ceil_div_eq {N P : Int} (hP : 1 ≤ P) (hr1 : 1 ≤ N % P) :
    ⌈(N : ℚ) / (P : ℚ)⌉ = N / P + 1 := by
  have hPq : (0 : ℚ) < (P : ℚ) := by exact_mod_cast (by omega : (0 : Int) < P)
  have hdm : P * (N / P) + N % P = N := Int.ediv_add_emod N P
  have hr : N % P < P := Int.emod_lt_of_pos _ (by omega)
  rw [Int.ceil_eq_iff]
  constructor
  · rw [lt_div_iff₀ hPq]
    have h : (N / P + 1 - 1) * P < N := by linarith [mul_comm (N / P) P]
    exact_mod_cast h
  · rw [div_le_iff₀ hPq]
    have h : N ≤ (N / P + 1) * P := by linarith [mul_comm (N / P) P]
    exact_mod_cast h

/-- C4: for every `N ≥ 0` and `P ≥ 1`, every share of the `P`-worker plan computed by
the partition loop is `⌊N/P⌋` or `⌈N/P⌉`, and the number of workers whose share is
greater than `⌊N/P⌋` is `N mod P`. -/
theorem share_floor_or_ceil (N P : Int) (hN : 0 ≤ N) (hN2 : N ≤ maxInt) (hP : 1 ≤ P)
    (hP2 : P ≤ maxInt) :
    (∀ i : Int, 1 ≤ i → i ≤ P →
      share N P i = ⌊(N : ℚ) / (P : ℚ)⌋ ∨ share N P i = ⌈(N : ℚ) / (P : ℚ)⌉) ∧
    (((Finset.Icc 1 P).filter fun i => ⌊(N : ℚ) / (P : ℚ)⌋ < share N P i).card : Int) =
      N % P := by
  have hr0 : 0 ≤ N % P := Int.emod_nonneg _ (by omega)
  have hr : N % P < P := Int.emod_lt_of_pos _ (by omega)
  rw [floor_div_eq hP]
  constructor
  · intro i hi _
    rw [share_eq hN hN2 hP hP2 hi]
    by_cases h : i ≤ N % P
    · right
      rw [ceil_div_eq hP (by omega)]
      simp [h]
    · left
      simp [h]
  · have hset : ((Finset.Icc 1 P).filter fun i => N / P < share N P i) =
        Finset.Icc 1 (N % P) := by
      ext i
      simp only [Finset.mem_filter, Finset.mem_Icc]
      constructor
      · rintro ⟨⟨h1, _⟩, h3⟩
        rw [share_eq hN hN2 hP hP2 h1] at h3
        by_cases h : i ≤ N % P
        · exact ⟨h1, h⟩
        · simp [h] at h3
      · rintro ⟨h1, h2⟩
        refine ⟨⟨h1, by omega⟩, ?_⟩
        rw [share_eq hN hN2 hP hP2 h1]
        simp [h2]
    rw [hset, Int.card_Icc]
    omega

theorem share_floor_or_ceil_witness :
    (∀ i : Int, 1 ≤ i → i ≤ 4 →
      share 10 4 i = ⌊((10 : Int) : ℚ) / ((4 : Int) : ℚ)⌋ ∨
        share 10 4 i = ⌈((10 : Int) : ℚ) / ((4 : Int) : ℚ)⌉) ∧
    (((Finset.Icc 1 4).filter fun i =>
        ⌊((10 : Int) : ℚ) / ((4 : Int) : ℚ)⌋ < share 10 4 i).card : Int) = 10 % 4 :=
  share_floor_or_ceil 10 4 (by decide) (by decide) (by decide) (by decide)

/-! ## Standard output -/

theorem mainBody_stdout {fuel : Nat} {gFlag : Bool} {N P : Int} {b : Buf}
    {duration rate : String} {d : Dispatch} {o : Outcome}
    (hd : mainDispatch fuel gFlag N P = some d)
    (ho : mainBody fuel gFlag N P b duration rate = some o) :
    o.stdout = d.stdout ++ [completionLine N duration rate] ∧ o.spawned = d.spawned := by
  unfold mainBody at ho
  rw [hd] at ho
  simp only at ho
  cases hs : mainSends fuel gFlag N b d with
  | running ch => rw [hs] at ho; simp at ho
  | done ch =>
    rw [hs] at ho
    simp only [Option.some.injEq] at ho
    subst ho
    exact ⟨rfl, rfl⟩

/-- C6: for every `N ≥ 0` and `P ≥ 1`, the dispatch step of `main` terminates and has
printed, in pooled mode, `Starting multiple senders` followed by one line
`worker <i>: <k> attempts` for each of the workers `i = 1, 2, ..., min N P` in this
order, `k` being the share of worker `i`, and in single mode the one line
`Starting single sender`; in a run that completes, the only line printed after these
is the completion line. -/
theorem lines_before_completion (gFlag : Bool) (N P : Int) (fuel : Nat) (hN : 0 ≤ N)
    (hN2 : N ≤ maxInt) (hP : 1 ≤ P) (hP2 : P < maxInt) (hf : P < (fuel : Int)) :
    ∃ d, mainDispatch fuel gFlag N P = some d ∧
      d.stdout =
        (if gFlag then
          "Starting multiple senders\n" ::
            (List.range (min N P).toNat).map fun (j : Nat) =>
              workerLine ((j : Int) + 1, share N P ((j : Int) + 1))
        else ["Starting single sender\n"]) ∧
      d.spawned =
        (if gFlag then
          (List.range (min N P).toNat).map fun (j : Nat) =>
            ((j : Int) + 1, share N P ((j : Int) + 1))
        else []) ∧
      ∀ (b : Buf) (duration rate : String) (o : Outcome),
        mainBody fuel gFlag N P b duration rate = some o →
          o.stdout = d.stdout ++ [completionLine N duration rate] := by
  cases gFlag with
  | true =>
    have hd : mainDispatch fuel true N P =
        some { stdout := "Starting multiple senders\n" :: (plan N P).map workerLine
               spawned := plan N P } := by
      unfold mainDispatch
      simp only [if_true]
      exact dispatchWorkers_eq N P fuel hN hN2 hP hP2 hf
    refine ⟨_, hd, ?_, ?_, fun b duration rate o ho => (mainBody_stdout hd ho).1⟩
    · simp [plan_eq_map_share hN hN2 hP (le_of_lt hP2)]
    · simp [plan_eq_map_share hN hN2 hP (le_of_lt hP2)]
  | false =>
    have hd : mainDispatch fuel false N P =
        some { stdout := ["Starting single sender\n"], spawned := [] } := by
      unfold mainDispatch
      simp [sprintf_single]
    exact ⟨_, hd, by simp, by simp, fun b duration rate o ho => (mainBody_stdout hd ho).1⟩

theorem lines_before_completion_witness :
    ∃ d, mainDispatch 5 true 10 4 = some d ∧
      d.stdout =
        ["Starting multiple senders\n", "worker 1: 3 attempts\n", "worker 2: 3 attempts\n",
          "worker 3: 2 attempts\n", "worker 4: 2 attempts\n"] ∧
      d.spawned = [(1, 3), (2, 3), (3, 2), (4, 2)] ∧
      ∀ (b : Buf) (duration rate : String) (o : Outcome),
        mainBody 5 true 10 4 b duration rate = some o →
          o.stdout = d.stdout ++ [completionLine 10 duration rate] := by
  obtain ⟨d, h1, h2, h3, h4⟩ :=
    lines_before_completion true 10 4 5 (by decide) (by decide) (by decide) (by decide)
      (by decide)
  exact ⟨d, h1, h2.trans (by decide), h3.trans (by decide), h4⟩

/-! ## A negative total -/

theorem tdiv_neg_total {N P : Int} (hN : N < 0) (hP : 1 ≤ P) :
    Int.tdiv N P = -((-N) / P) ∧ Int.tmod N P = -((-N) % P) := by
  have h1 : Int.tdiv N P = -((-N) / P) := by
    have h : Int.tdiv N P = Int.tdiv (-(-N)) P := by rw [neg_neg]
    rw [h, Int.neg_tdiv, Int.tdiv_eq_ediv (by omega) (by omega)]
  refine ⟨h1, ?_⟩
  have h2 := Int.tmod_add_tdiv N P
  have h3 : P * ((-N) / P) + (-N) % P = -N := Int.ediv_add_emod (-N) P
  rw [h1] at h2
  have h4 : P * -(-N / P) = -(P * (-N / P)) := by ring
  omega

theorem goDiv_nonpos {N P : Int} (hN : N < 0) (hN2 : minInt ≤ N) (hP : 1 ≤ P) :
    goDiv N P ≤ 0 := by
  unfold goDiv
  rw [(tdiv_neg_total hN hP).1]
  have h0 : 0 ≤ (-N) / P := Int.ediv_nonneg (by omega) (by omega)
  have h1 : (-N) / P ≤ -N := Int.ediv_le_self _ (by omega)
  rw [wrapInt_of_range]
  · omega
  · unfold minInt at *; omega
  · unfold maxInt; omega

theorem goMod_nonpos {N P : Int} (hN : N < 0) (hP : 1 ≤ P) (hP2 : P ≤ maxInt) :
    goMod N P ≤ 0 := by
  unfold goMod
  rw [(tdiv_neg_total hN hP).2]
  have h0 : 0 ≤ (-N) % P := Int.emod_nonneg _ (by omega)
  have h1 : (-N) % P < P := Int.emod_lt_of_pos _ (by omega)
  rw [wrapInt_of_range]
  · omega
  · unfold minInt; unfold maxInt at hP2; omega
  · unfold maxInt; omega

/-- C10: for every negative total `N` and every `P ≥ 1`, `main` runs to completion in
either mode without sending anything: the single-mode loop body never runs, the
pooled loop breaks at worker 1 with a share `≤ 0`, so no worker is spawned and no
`worker` line is printed; the completion line is printed with the negative `N`. -/
theorem negative_total_sends_nothing (gFlag : Bool) (N P : Int) (fuel : Nat) (b : Buf)
    (duration rate : String) (hN : N < 0) (hN2 : minInt ≤ N) (hP : 1 ≤ P)
    (hP2 : P ≤ maxInt) (hf : 0 < fuel) :
    (∀ i : Int, 1 ≤ i → share N P i ≤ 0) ∧
    mainBody fuel gFlag N P b duration rate =
      some { stdout :=
               [if gFlag then "Starting multiple senders\n" else "Starting single sender\n",
                "Sent " ++ toString N ++ " packets, took " ++ duration ++ " (" ++ rate ++
                  " dnstap/sec)\n"]
             spawned := []
             sent := [] } := by
  obtain ⟨f, rfl⟩ : ∃ f, fuel = f + 1 := ⟨fuel - 1, by omega⟩
  have hq := goDiv_nonpos hN hN2 hP
  have hr := goMod_nonpos hN hP hP2
  have hr1 : ¬ (1 : Int) ≤ goMod N P := by omega
  have hsh : ∀ i : Int, 1 ≤ i → share N P i ≤ 0 := by
    intro i hi
    have hi1 : ¬ i ≤ goMod N P := by omega
    unfold share attemptsFor
    simp only [hi1, if_false]
    exact hq
  refine ⟨hsh, ?_⟩
  cases gFlag with
  | true =>
    have hq1 : ¬ goDiv N P > 0 := by omega
    simp [mainBody, mainDispatch, dispatchWorkers, partitionLoop, attemptsFor, hr1, hq1,
      hP, mainSends, runWorkers, sprintf_multiple, completionLine_eq]
  | false =>
    have hN1 : ¬ (1 : Int) ≤ N := by omega
    simp [mainBody, mainDispatch, mainSends, sendLoop, hN1, sprintf_single,
      completionLine_eq]

theorem negative_total_sends_nothing_witness :
    (∀ i : Int, 1 ≤ i → share (-9) 4 i ≤ 0) ∧
    mainBody 1 true (-9) 4 [7] "1ms" "-9000.000000" =
      some { stdout :=
               [if true = true then "Starting multiple senders\n"
                else "Starting single sender\n",
                "Sent " ++ toString (-9 : Int) ++ " packets, took " ++ "1ms" ++ " (" ++
                  "-9000.000000" ++ " dnstap/sec)\n"]
             spawned := []
             sent := [] } :=
  negative_total_sends_nothing true (-9) 4 1 [7] "1ms" "-9000.000000" (by decide)
    (by decide) (by decide) (by decide) (by decide)

/-! ## The arithmetic of the rate -/

theorem bitLength_spec : ∀ (fuel n : Nat), n ≤ fuel → 0 < n →
    ∃ k, bitLength fuel n = k + 1 ∧ 2 ^ k ≤ n ∧ n < 2 ^ (k + 1) := by
  intro fuel
  induction fuel with
  | zero => intro n h1 h2; omega
  | succ f ih =>
    intro n h1 h2
    have hn : n ≠ 0 := by omega
    simp only [bitLength, hn, if_false]
    by_cases h : n / 2 = 0
    · refine ⟨0, ?_, ?_, ?_⟩
      · have : bitLength f (n / 2) = 0 := by
          rw [h]; cases f <;> simp [bitLength]
        omega
      · simpa using h2
      · have : n < 2 := by omega
        simpa using this
    · obtain ⟨k, hk1, hk2, hk3⟩ := ih (n / 2) (by omega) (by omega)
      refine ⟨k + 1, by omega, ?_, ?_⟩
      · rw [pow_succ]; omega
      · rw [pow_succ]; omega

theorem bits_spec (n : Nat) (h : 0 < n) :
    ∃ k, bits n = k + 1 ∧ 2 ^ k ≤ n ∧ n < 2 ^ (k + 1) :=
  bitLength_spec n n (le_refl _) h

theorem bits_le_of_lt (n k : Nat) (h : n < 2 ^ k) : bits n ≤ k := by
  by_cases hn : n = 0
  · subst hn; simp [bits, bitLength]
  · obtain ⟨j, hj1, hj2, _⟩ := bits_spec n (by omega)
    have : 2 ^ j < 2 ^ k := lt_of_le_of_lt hj2 h
    have : j < k := (Nat.pow_lt_pow_iff_right (by norm_num)).1 this
    omega

theorem roundHalfEven_spec (num den : Nat) (hden : 0 < den) :
    2 * num ≤ (2 * roundHalfEven num den + 1) * den ∧
      2 * roundHalfEven num den * den ≤ 2 * num + den := by
  have h1 : den * (num / den) + num % den = num := Nat.div_add_mod num den
  have h2 : num % den < den := Nat.mod_lt _ hden
  generalize hq : num / den = q at h1
  generalize hr : num % den = r at h1 h2
  unfold roundHalfEven
  simp only [hq, hr]
  have e1 : (2 * q + 1) * den = 2 * (den * q) + den := by ring
  have e2 : 2 * q * den = 2 * (den * q) := by ring
  have e3 : (2 * (q + 1) + 1) * den = 2 * (den * q) + 3 * den := by ring
  have e4 : 2 * (q + 1) * den = 2 * (den * q) + 2 * den := by ring
  split_ifs <;> constructor <;> first | (rw [e1]; omega) | (rw [e2]; omega) | (rw [e3]; omega) | (rw [e4]; omega)

theorem roundHalfEven_near (num den : Nat) (hden : 0 < den) :
    |((roundHalfEven num den : Nat) : ℚ) - (num : ℚ) / den| ≤ 1 / 2 := by
  obtain ⟨h1, h2⟩ := roundHalfEven_spec num den hden
  have hd : (0 : ℚ) < den := by exact_mod_cast hden
  have h1q : (2 : ℚ) * num ≤ (2 * (roundHalfEven num den : ℚ) + 1) * den := by exact_mod_cast h1
  have h2q : (2 : ℚ) * (roundHalfEven num den : ℚ) * den ≤ 2 * num + den := by exact_mod_cast h2
  have hy : (num : ℚ) = (num : ℚ) / den * den := by field_simp
  generalize (num : ℚ) / den = y at hy
  rw [hy] at h1q h2q
  have a1 : 2 * y ≤ 2 * (roundHalfEven num den : ℚ) + 1 :=
    le_of_mul_le_mul_right (by linarith) hd
  have a2 : 2 * (roundHalfEven num den : ℚ) ≤ 2 * y + 1 :=
    le_of_mul_le_mul_right (by linarith) hd
  rw [abs_le]
  constructor <;> linarith

theorem scaled_spec (p q : Nat) (e : Int) (hq : 0 < q) :
    0 < (scaled p q e).2 ∧
      ((scaled p q e).1 : ℚ) / ((scaled p q e).2 : ℚ) = (p : ℚ) / q / (2 : ℚ) ^ e := by
  unfold scaled
  by_cases he : 0 ≤ e
  · simp only [he, if_true]
    refine ⟨Nat.mul_pos hq (pow_pos (by norm_num) _), ?_⟩
    have h2 : ((2 : ℚ) ^ e) = (2 : ℚ) ^ e.toNat := by
      rw [← zpow_natCast, Int.toNat_of_nonneg he]
    rw [h2]
    push_cast
    rw [div_div]
  · simp only [he, if_false]
    refine ⟨hq, ?_⟩
    have h2 : ((2 : ℚ) ^ e) = ((2 : ℚ) ^ (-e).toNat)⁻¹ := by
      rw [← zpow_natCast, Int.toNat_of_nonneg (by omega), zpow_neg, inv_inv]
    rw [h2]
    push_cast
    field_simp

theorem two_zpow_pos (e : Int) : (0 : ℚ) < (2 : ℚ) ^ e := zpow_pos (by norm_num) e

/-- In the normal range `roundF64` returns a finite value with a 53-bit significand
within half a unit in the last place of `p / q`. -/
theorem roundF64_spec (neg : Bool) (p q L : Nat) (hp : 0 < p) (hq : 0 < q) (hL : L ≤ 1021)
    (hlo : (2 : ℚ) ^ (-(L : Int)) ≤ (p : ℚ) / q) (hhi : (p : ℚ) / q ≤ (2 : ℚ) ^ (L : Int)) :
    ∃ m e, roundF64 neg p q = F64.finite neg m e ∧ 2 ^ 52 ≤ m ∧ m ≤ 2 ^ 53 ∧
      -(L : Int) - 53 ≤ e ∧ e ≤ (L : Int) - 52 ∧
      |(m : ℚ) * (2 : ℚ) ^ e - (p : ℚ) / q| ≤ (p : ℚ) / q / 2 ^ 53 := by
  obtain ⟨a, ha, ha1, ha2⟩ := bits_spec p hp
  obtain ⟨b, hb, hb1, hb2⟩ := bits_spec q hq
  have hpq : (0 : ℚ) < p := by exact_mod_cast hp
  have hqq : (0 : ℚ) < q := by exact_mod_cast hq
  have hx : (0 : ℚ) < (p : ℚ) / q := div_pos hpq hqq
  -- the first exponent
  have he0 : ((bits p : Int) - (bits q : Int) - 53) = (a : Int) - b - 53 := by
    rw [ha, hb]; push_cast; ring
  -- bounds of x
  have hxlo : (2 : ℚ) ^ ((a : Int) - b - 1) < (p : ℚ) / q := by
    rw [lt_div_iff₀ hqq]
    have h1 : (q : ℚ) < 2 ^ ((b : Int) + 1) := by
      rw [zpow_add_one₀ (by norm_num), zpow_natCast, ← pow_succ]; exact_mod_cast hb2
    have h2 : (2 : ℚ) ^ (a : Int) ≤ p := by rw [zpow_natCast]; exact_mod_cast ha1
    calc (2 : ℚ) ^ ((a : Int) - b - 1) * q < 2 ^ ((a : Int) - b - 1) * 2 ^ ((b : Int) + 1) :=
          mul_lt_mul_of_pos_left h1 (two_zpow_pos _)
      _ = 2 ^ (a : Int) := by rw [← zpow_add₀ (by norm_num)]; congr 1; ring
      _ ≤ p := h2
  have hxhi : (p : ℚ) / q < (2 : ℚ) ^ ((a : Int) - b + 1) := by
    rw [div_lt_iff₀ hqq]
    have h1 : (2 : ℚ) ^ (b : Int) ≤ q := by rw [zpow_natCast]; exact_mod_cast hb1
    have h2 : (p : ℚ) < 2 ^ ((a : Int) + 1) := by
      rw [zpow_add_one₀ (by norm_num), zpow_natCast, ← pow_succ]; exact_mod_cast ha2
    calc (p : ℚ) < 2 ^ ((a : Int) + 1) := h2
      _ = 2 ^ ((a : Int) - b + 1) * 2 ^ (b : Int) := by
          rw [← zpow_add₀ (by norm_num)]; congr 1; ring
      _ ≤ 2 ^ ((a : Int) - b + 1) * q := mul_le_mul_of_nonneg_left h1 (le_of_lt (two_zpow_pos _))
  -- the scaled value at the first exponent
  set e0 : Int := (a : Int) - b - 53 with he0def
  have c52 : (2 : ℚ) ^ 52 = (2 : ℚ) ^ (52 : Int) := by norm_num
  have c54 : (2 : ℚ) ^ 54 = (2 : ℚ) ^ (54 : Int) := by norm_num
  have hy0lo : (2 : ℚ) ^ 52 < (p : ℚ) / q / 2 ^ e0 := by
    rw [c52, lt_div_iff₀ (two_zpow_pos _), ← zpow_add₀ (by norm_num)]
    have : (52 : Int) + e0 = (a : Int) - b - 1 := by rw [he0def]; ring
    rw [this]; exact hxlo
  have hy0hi : (p : ℚ) / q / 2 ^ e0 < (2 : ℚ) ^ 54 := by
    rw [c54, div_lt_iff₀ (two_zpow_pos _), ← zpow_add₀ (by norm_num)]
    have : (54 : Int) + e0 = (a : Int) - b + 1 := by rw [he0def]; ring
    rw [this]; exact hxhi
  obtain ⟨hs0pos, hs0⟩ := scaled_spec p q e0 hq
  have hs0q : (0 : ℚ) < ((scaled p q e0).2 : ℚ) := by exact_mod_cast hs0pos
  -- the exponent of the result
  have key : ∃ e1 : Int, (e1 = e0 ∨ e1 = e0 + 1) ∧
      (if (scaled p q e0).1 / (scaled p q e0).2 < 2 ^ 53 then e0 else e0 + 1) = e1 ∧
      (2 : ℚ) ^ 52 ≤ (p : ℚ) / q / 2 ^ e1 ∧ (p : ℚ) / q / 2 ^ e1 < (2 : ℚ) ^ 53 := by
    by_cases hc : (scaled p q e0).1 / (scaled p q e0).2 < 2 ^ 53
    · refine ⟨e0, Or.inl rfl, if_pos hc, le_of_lt hy0lo, ?_⟩
      rw [Nat.div_lt_iff_lt_mul hs0pos] at hc
      have hc1 : ((scaled p q e0).1 : ℚ) < 2 ^ 53 * ((scaled p q e0).2 : ℚ) := by
        exact_mod_cast hc
      rw [← hs0, div_lt_iff₀ hs0q]
      exact hc1
    · refine ⟨e0 + 1, Or.inr rfl, if_neg hc, ?_, ?_⟩
      · rw [Nat.div_lt_iff_lt_mul hs0pos, not_lt] at hc
        have hc1 : (2 : ℚ) ^ 53 * ((scaled p q e0).2 : ℚ) ≤ ((scaled p q e0).1 : ℚ) := by
          exact_mod_cast hc
        have hc2 : (2 : ℚ) ^ 53 ≤ (p : ℚ) / q / 2 ^ e0 := by
          rw [← hs0, le_div_iff₀ hs0q]
          exact hc1
        rw [zpow_add_one₀ (by norm_num), ← div_div, le_div_iff₀ (by norm_num)]
        calc (2 : ℚ) ^ 52 * 2 = 2 ^ 53 := by norm_num
          _ ≤ _ := hc2
      · rw [zpow_add_one₀ (by norm_num), ← div_div, div_lt_iff₀ (by norm_num)]
        calc (p : ℚ) / q / 2 ^ e0 < 2 ^ 54 := hy0hi
          _ = 2 ^ 53 * 2 := by norm_num
  obtain ⟨e1, he1, hif, hy1lo, hy1hi⟩ := key
  have hab1 : -(L : Int) < (a : Int) - b + 1 :=
    (zpow_lt_zpow_iff_right₀ (by norm_num : (1 : ℚ) < 2)).1 (lt_of_le_of_lt hlo hxhi)
  have hab2 : (a : Int) - b - 1 < (L : Int) :=
    (zpow_lt_zpow_iff_right₀ (by norm_num : (1 : ℚ) < 2)).1 (lt_of_lt_of_le hxlo hhi)
  have he1lo : -(L : Int) - 53 ≤ e1 := by rcases he1 with h | h <;> rw [h, he0def] <;> omega
  have he1hi : e1 ≤ (L : Int) - 52 := by rcases he1 with h | h <;> rw [h, he0def] <;> omega
  have hmax : max e1 (-1074) = e1 := max_eq_left (by omega)
  obtain ⟨hspos, hs⟩ := scaled_spec p q e1 hq
  have hnear := roundHalfEven_near (scaled p q e1).1 (scaled p q e1).2 hspos
  rw [hs] at hnear
  set m := roundHalfEven (scaled p q e1).1 (scaled p q e1).2 with hm
  have habs := abs_le.1 hnear
  have hmlo : 2 ^ 52 ≤ m := by
    by_contra hlt
    have h1 : m + 1 ≤ 2 ^ 52 := by omega
    have h2 : ((m : ℚ) + 1) ≤ 2 ^ 52 := by exact_mod_cast h1
    linarith [habs.1]
  have hmhi : m ≤ 2 ^ 53 := by
    by_contra hlt
    have h1 : 2 ^ 53 + 1 ≤ m := by omega
    have h2 : ((2 : ℚ) ^ 53 + 1) ≤ m := by exact_mod_cast h1
    linarith [habs.2]
  have hbits : bits m ≤ 54 := bits_le_of_lt m 54 (by omega)
  refine ⟨m, e1, ?_, hmlo, hmhi, he1lo, he1hi, ?_⟩
  · unfold roundF64
    have hp0 : p ≠ 0 := by omega
    simp only [hp0, if_false, he0, ← he0def, hif, hmax, ← hm]
    have : ¬ ((bits m : Int) + e1 > 1024) := by omega
    rw [if_neg this]
  · have h2e : (0 : ℚ) < (2 : ℚ) ^ e1 := two_zpow_pos _
    have hxe : (p : ℚ) / q = (p : ℚ) / q / 2 ^ e1 * 2 ^ e1 :=
      (div_mul_cancel₀ _ (ne_of_gt h2e)).symm
    generalize (p : ℚ) / q / 2 ^ e1 = y at hxe hy1lo hy1hi hnear habs
    rw [hxe, ← sub_mul, abs_mul, abs_of_pos h2e, mul_div_right_comm]
    apply mul_le_mul_of_nonneg_right _ (le_of_lt h2e)
    rw [le_div_iff₀ (by norm_num)]
    have : |(m : ℚ) - y| * 2 ^ 53 ≤ 1 / 2 * 2 ^ 53 :=
      mul_le_mul_of_nonneg_right hnear (by norm_num)
    have h4 : (1 : ℚ) / 2 * 2 ^ 53 = 2 ^ 52 := by norm_num
    linarith

theorem f64ofInt_near (i : Int) (h1 : i.natAbs ≤ 2 ^ 63) :
    ∃ m e, f64ofInt i = F64.finite (decide (i < 0)) m e ∧ m ≤ 2 ^ 53 ∧ (m = 0 ↔ i = 0) ∧
      (i ≠ 0 → 2 ^ 52 ≤ m) ∧ -116 ≤ e ∧ e ≤ 11 ∧
      |(m : ℚ) * (2 : ℚ) ^ e - abs (i : ℚ)| ≤ abs (i : ℚ) / 2 ^ 53 := by
  have hcast : ((i.natAbs : Nat) : ℚ) = |(i : ℚ)| := by
    rw [Nat.cast_natAbs]; push_cast; rfl
  by_cases hi : i = 0
  · subst hi
    exact ⟨0, 0, by decide, by norm_num, by simp, by simp, by omega, by omega, by simp⟩
  · have hpos : 0 < i.natAbs := Int.natAbs_pos.2 hi
    have hlo : (2 : ℚ) ^ (-((63 : Nat) : Int)) ≤ ((i.natAbs : Nat) : ℚ) / ((1 : Nat) : ℚ) := by
      have h1 : (1 : ℚ) ≤ (i.natAbs : ℚ) := by exact_mod_cast hpos
      have h2 : (2 : ℚ) ^ (-((63 : Nat) : Int)) ≤ 1 := by norm_num
      simpa using le_trans h2 h1
    have hhi : ((i.natAbs : Nat) : ℚ) / ((1 : Nat) : ℚ) ≤ (2 : ℚ) ^ ((63 : Nat) : Int) := by
      rw [Nat.cast_one, div_one, zpow_natCast]
      exact_mod_cast h1
    obtain ⟨m, e, e1, e2, e3, e4, e5, e6⟩ :=
      roundF64_spec (decide (i < 0)) i.natAbs 1 63 hpos (by norm_num) (by norm_num) hlo hhi
    have hm : m ≠ 0 := by
      have : 0 < 2 ^ 52 := by norm_num
      omega
    refine ⟨m, e, e1, e3, by simp [hm, hi], fun _ => e2, by omega, by omega, ?_⟩
    simpa [hcast] using e6

theorem two_pow_toNat (k : Int) (hk : 0 ≤ k) : ((2 : ℚ) ^ k.toNat) = (2 : ℚ) ^ k := by
  rw [← zpow_natCast, Int.toNat_of_nonneg hk]

theorem f64div_zero (s t : Bool) (n : Nat) (e f : Int) (hn : 0 < n) :
    f64div (F64.finite s 0 e) (F64.finite t n f) = F64.finite (xor s t) 0 0 := by
  have hn0 : n ≠ 0 := by omega
  unfold f64div
  simp only [hn0, if_false]
  split_ifs <;> simp [roundF64]

/-- The quotient of two finite non-zero values is the rounding of their exact quotient. -/
theorem f64div_spec (s t : Bool) (m n : Nat) (e f : Int) (L : Nat) (hm : 0 < m)
    (hn : 0 < n) (hL : L ≤ 1021)
    (hlo : (2 : ℚ) ^ (-(L : Int)) ≤ (m : ℚ) * 2 ^ e / ((n : ℚ) * 2 ^ f))
    (hhi : (m : ℚ) * 2 ^ e / ((n : ℚ) * 2 ^ f) ≤ (2 : ℚ) ^ (L : Int)) :
    ∃ m1 e1, f64div (F64.finite s m e) (F64.finite t n f) = F64.finite (xor s t) m1 e1 ∧
      2 ^ 52 ≤ m1 ∧ m1 ≤ 2 ^ 53 ∧ -(L : Int) - 53 ≤ e1 ∧ e1 ≤ (L : Int) - 52 ∧
      |(m1 : ℚ) * (2 : ℚ) ^ e1 - (m : ℚ) * 2 ^ e / ((n : ℚ) * 2 ^ f)| ≤
        (m : ℚ) * 2 ^ e / ((n : ℚ) * 2 ^ f) / 2 ^ 53 := by
  have hn0 : n ≠ 0 := by omega
  have hnq : (n : ℚ) ≠ 0 := by exact_mod_cast hn0
  have h2e : (2 : ℚ) ^ e ≠ 0 := ne_of_gt (two_zpow_pos e)
  have h2f : (2 : ℚ) ^ f ≠ 0 := ne_of_gt (two_zpow_pos f)
  unfold f64div
  simp only [hn0, if_false]
  by_cases hef : e ≥ f
  · simp only [hef, if_true]
    have hv : (((m * 2 ^ (e - f).toNat : Nat) : ℚ)) / (n : ℚ) =
        (m : ℚ) * 2 ^ e / ((n : ℚ) * 2 ^ f) := by
      push_cast
      rw [two_pow_toNat (e - f) (by omega), zpow_sub₀ (by norm_num)]
      field_simp
      ring
    rw [← hv] at hlo hhi ⊢
    exact roundF64_spec (xor s t) _ n L (Nat.mul_pos hm (pow_pos (by norm_num) _)) hn hL hlo hhi
  · simp only [hef, if_false]
    have hv : ((m : Nat) : ℚ) / ((n * 2 ^ (f - e).toNat : Nat) : ℚ) =
        (m : ℚ) * 2 ^ e / ((n : ℚ) * 2 ^ f) := by
      push_cast
      rw [two_pow_toNat (f - e) (by omega), zpow_sub₀ (by norm_num)]
      field_simp
    rw [← hv] at hlo hhi ⊢
    exact roundF64_spec (xor s t) m _ L hm (Nat.mul_pos hn (pow_pos (by norm_num) _)) hL hlo hhi

/-- The sum of two finite non-negative values, not both zero, is the rounding of their
exact sum. -/
theorem f64add_spec (m n : Nat) (e f : Int) (L : Nat) (hpos : 0 < m + n) (hL : L ≤ 1021)
    (hlo : (2 : ℚ) ^ (-(L : Int)) ≤ (m : ℚ) * 2 ^ e + (n : ℚ) * 2 ^ f)
    (hhi : (m : ℚ) * 2 ^ e + (n : ℚ) * 2 ^ f ≤ (2 : ℚ) ^ (L : Int)) :
    ∃ m1 e1, f64add (F64.finite false m e) (F64.finite false n f) = F64.finite false m1 e1 ∧
      2 ^ 52 ≤ m1 ∧ m1 ≤ 2 ^ 53 ∧ -(L : Int) - 53 ≤ e1 ∧ e1 ≤ (L : Int) - 52 ∧
      |(m1 : ℚ) * (2 : ℚ) ^ e1 - ((m : ℚ) * 2 ^ e + (n : ℚ) * 2 ^ f)| ≤
        ((m : ℚ) * 2 ^ e + (n : ℚ) * 2 ^ f) / 2 ^ 53 := by
  set g : Int := min e f with hg
  have hge : g ≤ e := min_le_left _ _
  have hgf : g ≤ f := min_le_right _ _
  set Z : Nat := m * 2 ^ (e - g).toNat + n * 2 ^ (f - g).toNat with hZ
  have hZpos : 0 < Z := by
    have h1 : 0 < 2 ^ (e - g).toNat := pow_pos (by norm_num) _
    have h2 : 0 < 2 ^ (f - g).toNat := pow_pos (by norm_num) _
    rcases Nat.eq_zero_or_pos m with hm | hm
    · have hn : 0 < n := by omega
      have := Nat.mul_pos hn h2
      omega
    · have := Nat.mul_pos hm h1
      omega
  have hz : (1 : Int) * ((m : Int) * 2 ^ (e - g).toNat) + 1 * ((n : Int) * 2 ^ (f - g).toNat) =
      (Z : Int) := by
    rw [hZ]; push_cast; ring
  have hZv : (Z : ℚ) * 2 ^ g = (m : ℚ) * 2 ^ e + (n : ℚ) * 2 ^ f := by
    rw [hZ]
    push_cast
    rw [two_pow_toNat (e - g) (by omega), two_pow_toNat (f - g) (by omega), add_mul,
      mul_assoc, mul_assoc, ← zpow_add₀ (by norm_num), ← zpow_add₀ (by norm_num)]
    congr 3 <;> ring
  have hfin : f64add (F64.finite false m e) (F64.finite false n f) =
      if 0 ≤ g then roundF64 false (Z * 2 ^ g.toNat) 1 else roundF64 false Z (2 ^ (-g).toNat) := by
    unfold f64add
    simp only [Bool.false_eq_true, if_false, ← hg, hz]
    have hz0 : (Z : Int) ≠ 0 := by omega
    have hzneg : decide ((Z : Int) < 0) = false := by simp
    simp only [hz0, if_false, hzneg, Int.natAbs_ofNat]
  rw [hfin]
  by_cases h0 : 0 ≤ g
  · simp only [h0, if_true]
    have hv : (((Z * 2 ^ g.toNat : Nat) : ℚ)) / ((1 : Nat) : ℚ) =
        (m : ℚ) * 2 ^ e + (n : ℚ) * 2 ^ f := by
      push_cast
      rw [two_pow_toNat g h0, div_one, hZv]
    rw [← hv] at hlo hhi ⊢
    exact roundF64_spec false _ 1 L (Nat.mul_pos hZpos (pow_pos (by norm_num) _))
      (by norm_num) hL hlo hhi
  · simp only [h0, if_false]
    have hv : ((Z : Nat) : ℚ) / ((2 ^ (-g).toNat : Nat) : ℚ) =
        (m : ℚ) * 2 ^ e + (n : ℚ) * 2 ^ f := by
      push_cast
      rw [two_pow_toNat (-g) (by omega), zpow_neg, div_inv_eq_mul, hZv]
    rw [← hv] at hlo hhi ⊢
    exact roundF64_spec false Z _ L hZpos (pow_pos (by norm_num) _) hL hlo hhi

theorem near_bounds {v x : ℚ} (h : |v - x| ≤ x / 2 ^ 53) :
    (1 - 1 / 2 ^ 53) * x ≤ v ∧ v ≤ (1 + 1 / 2 ^ 53) * x := by
  have := abs_le.1 h
  constructor <;> linarith [this.1, this.2]

/-- The elapsed seconds of a positive duration: a finite positive value within three
roundings of `d / 10^9`. -/
theorem durationSeconds_spec (d : Int) (hd : 0 < d) (hd2 : d ≤ maxInt) :
    ∃ m e, durationSeconds d = F64.finite false m e ∧ 2 ^ 52 ≤ m ∧ m ≤ 2 ^ 53 ∧
      (1 - 1 / 2 ^ 53) ^ 3 * ((d : ℚ) / 10 ^ 9) ≤ (m : ℚ) * 2 ^ e ∧
      (m : ℚ) * 2 ^ e ≤ (1 + 1 / 2 ^ 53) ^ 3 * ((d : ℚ) / 10 ^ 9) := by
  unfold maxInt at hd2
  have hsec : Int.tdiv d 1000000000 = d / 1000000000 :=
    Int.tdiv_eq_ediv (by omega) (by norm_num)
  have hnsec : Int.tmod d 1000000000 = d % 1000000000 :=
    Int.tmod_eq_emod (by omega) (by norm_num)
  have hdm : 1000000000 * (d / 1000000000) + d % 1000000000 = d := Int.ediv_add_emod d _
  have hs0 : 0 ≤ d / 1000000000 := Int.ediv_nonneg (by omega) (by norm_num)
  have hn0 : 0 ≤ d % 1000000000 := Int.emod_nonneg _ (by norm_num)
  have hn1 : d % 1000000000 < 1000000000 := Int.emod_lt_of_pos _ (by norm_num)
  generalize d / 1000000000 = sec at hsec hdm hs0
  generalize d % 1000000000 = nsec at hnsec hdm hn0 hn1
  have hdq : (d : ℚ) / 10 ^ 9 = (sec : ℚ) + (nsec : ℚ) / 10 ^ 9 := by
    have : (d : ℚ) = 1000000000 * (sec : ℚ) + (nsec : ℚ) := by exact_mod_cast hdm.symm
    rw [this]; norm_num; ring
  have hsq0 : (0 : ℚ) ≤ sec := by exact_mod_cast hs0
  have hnq0 : (0 : ℚ) ≤ nsec := by exact_mod_cast hn0
  have hsq1 : (sec : ℚ) ≤ 2 ^ 34 := by
    have : sec ≤ 2 ^ 34 := by omega
    exact_mod_cast this
  have hnq1 : (nsec : ℚ) ≤ 10 ^ 9 := by
    have : nsec ≤ 10 ^ 9 := by omega
    exact_mod_cast this
  -- float64(sec)
  obtain ⟨mA, eA, hA, hA1, hA0, hA52, -, -, hAerr⟩ := f64ofInt_near sec (by omega)
  have hsneg : decide (sec < 0) = false := by simp; omega
  rw [hsneg] at hA
  rw [abs_of_nonneg hsq0] at hAerr
  obtain ⟨hAlo, hAhi⟩ := near_bounds hAerr
  -- float64(nsec)
  obtain ⟨m0, e0, hN, hN1, hN0, hN52, -, -, hNerr⟩ := f64ofInt_near nsec (by omega)
  have hnneg : decide (nsec < 0) = false := by simp; omega
  rw [hnneg] at hN
  rw [abs_of_nonneg hnq0] at hNerr
  obtain ⟨hNlo, hNhi⟩ := near_bounds hNerr
  -- float64(nsec)/1e9
  have hC : ∃ mC eC, f64div (f64ofInt nsec) (F64.finite false 1000000000 0) =
      F64.finite false mC eC ∧ (mC = 0 ↔ nsec = 0) ∧
      (1 - 1 / 2 ^ 53) ^ 2 * ((nsec : ℚ) / 10 ^ 9) ≤ (mC : ℚ) * 2 ^ eC ∧
      (mC : ℚ) * 2 ^ eC ≤ (1 + 1 / 2 ^ 53) ^ 2 * ((nsec : ℚ) / 10 ^ 9) := by
    by_cases hz : nsec = 0
    · have hm0 : m0 = 0 := hN0.2 hz
      subst hm0
      refine ⟨0, 0, ?_, by simp [hz], ?_, ?_⟩
      · rw [hN, f64div_zero false false _ e0 0 (by norm_num)]; rfl
      · rw [hz]; simp
      · rw [hz]; simp
    · have hm0 : 0 < m0 := by
        have := hN52 hz
        have : 0 < 2 ^ 52 := by norm_num
        omega
      have hn1' : (1 : ℚ) ≤ nsec := by
        have : 1 ≤ nsec := by omega
        exact_mod_cast this
      have hv : ((m0 : ℚ) * 2 ^ e0) / (((1000000000 : Nat) : ℚ) * 2 ^ (0 : Int)) =
          ((m0 : ℚ) * 2 ^ e0) / 10 ^ 9 := by norm_num
      obtain ⟨mC, eC, h1, h2, h3, -, -, h6⟩ :=
        f64div_spec false false m0 1000000000 e0 0 40 hm0 (by norm_num) (by norm_num)
          (by rw [hv, le_div_iff₀ (by norm_num)]
              have h1 : (2 : ℚ) ^ (-((40 : Nat) : Int)) * 10 ^ 9 ≤ 1 / 2 := by norm_num
              have h2 : (1 : ℚ) / 2 ≤ (m0 : ℚ) * 2 ^ e0 := by linarith
              exact le_trans h1 h2)
          (by rw [hv, div_le_iff₀ (by norm_num)]
              have h1 : (2 : ℚ) * 10 ^ 9 ≤ (2 : ℚ) ^ ((40 : Nat) : Int) * 10 ^ 9 := by norm_num
              have h2 : (m0 : ℚ) * 2 ^ e0 ≤ 2 * 10 ^ 9 := by linarith
              exact le_trans h2 h1)
      rw [hv] at h6
      obtain ⟨hClo, hChi⟩ := near_bounds h6
      have hmC : mC ≠ 0 := by
        have : 0 < 2 ^ 52 := by norm_num
        omega
      refine ⟨mC, eC, by rw [hN]; exact h1, by simp [hmC, hz], ?_, ?_⟩
      · calc (1 - 1 / 2 ^ 53) ^ 2 * ((nsec : ℚ) / 10 ^ 9)
            = (1 - 1 / 2 ^ 53) * (((1 - 1 / 2 ^ 53) * nsec) / 10 ^ 9) := by ring
          _ ≤ (1 - 1 / 2 ^ 53) * (((m0 : ℚ) * 2 ^ e0) / 10 ^ 9) := by
              apply mul_le_mul_of_nonneg_left _ (by norm_num)
              exact div_le_div_of_nonneg_right hNlo (by norm_num)
          _ ≤ _ := hClo
      · calc (mC : ℚ) * 2 ^ eC ≤ (1 + 1 / 2 ^ 53) * (((m0 : ℚ) * 2 ^ e0) / 10 ^ 9) := hChi
          _ ≤ (1 + 1 / 2 ^ 53) * (((1 + 1 / 2 ^ 53) * nsec) / 10 ^ 9) := by
              apply mul_le_mul_of_nonneg_left _ (by norm_num)
              exact div_le_div_of_nonneg_right hNhi (by norm_num)
          _ = _ := by ring
  obtain ⟨mC, eC, hCeq, hC0, hClo, hChi⟩ := hC
  -- the sum
  have hpos : 0 < mA + mC := by
    by_cases hz : sec = 0
    · have hnz : nsec ≠ 0 := by omega
      have : mC ≠ 0 := fun h => hnz (hC0.1 h)
      omega
    · have := hA52 hz
      have : 0 < 2 ^ 52 := by norm_num
      omega
  have hS0lo : (1 : ℚ) / 10 ^ 9 ≤ (sec : ℚ) + (nsec : ℚ) / 10 ^ 9 := by
    rw [← hdq]
    have : (1 : ℚ) ≤ d := by exact_mod_cast hd
    exact div_le_div_of_nonneg_right this (by norm_num)
  have hnq9 : (0 : ℚ) ≤ (nsec : ℚ) / 10 ^ 9 := div_nonneg hnq0 (by norm_num)
  have hnq9' : (nsec : ℚ) / 10 ^ 9 ≤ 1 := by
    rw [div_le_iff₀ (by norm_num)]; linarith
  generalize (nsec : ℚ) / 10 ^ 9 = c9 at hClo hChi hS0lo hnq9 hnq9' hdq
  generalize hva : (mA : ℚ) * 2 ^ eA = va at hAlo hAhi
  generalize hvc : (mC : ℚ) * 2 ^ eC = vc at hClo hChi
  norm_num at hAlo hAhi hClo hChi hS0lo
  have hsumlo : (1 - 1 / 2 ^ 53) ^ 2 * ((sec : ℚ) + c9) ≤ va + vc := by
    norm_num; linarith
  have hsumhi : va + vc ≤ (1 + 1 / 2 ^ 53) ^ 2 * ((sec : ℚ) + c9) := by
    norm_num; linarith
  have hlo40 : (2 : ℚ) ^ (-((40 : Nat) : Int)) ≤ (mA : ℚ) * 2 ^ eA + (mC : ℚ) * 2 ^ eC := by
    rw [hva, hvc]
    have h1 : (2 : ℚ) ^ (-((40 : Nat) : Int)) ≤ 1 / (2 * 10 ^ 9) := by norm_num
    have h2 : (1 : ℚ) / (2 * 10 ^ 9) ≤ va + vc := by
      norm_num at hsumlo ⊢; linarith
    exact le_trans h1 h2
  have hhi40 : (mA : ℚ) * 2 ^ eA + (mC : ℚ) * 2 ^ eC ≤ (2 : ℚ) ^ ((40 : Nat) : Int) := by
    rw [hva, hvc]
    have h1 : (2 : ℚ) * (2 ^ 34 + 1) ≤ (2 : ℚ) ^ ((40 : Nat) : Int) := by norm_num
    have h2 : va + vc ≤ 2 * (2 ^ 34 + 1) := by
      norm_num at hsumhi hsq1 ⊢; linarith
    exact le_trans h2 h1
  obtain ⟨m, e, h1, h2, h3, -, -, h6⟩ :=
    f64add_spec mA mC eA eC 40 hpos (by norm_num) hlo40 hhi40
  rw [hva, hvc] at h6
  obtain ⟨hSlo, hShi⟩ := near_bounds h6
  refine ⟨m, e, ?_, h2, h3, ?_, ?_⟩
  · unfold durationSeconds
    simp only [hsec, hnsec, hA, hCeq]
    exact h1
  · rw [hdq]
    generalize (m : ℚ) * 2 ^ e = vs at hSlo hShi
    norm_num at hSlo hsumlo ⊢; linarith
  · rw [hdq]
    generalize (m : ℚ) * 2 ^ e = vs at hSlo hShi
    norm_num at hShi hsumhi ⊢; linarith

theorem rate_bound (A S0 vn vs r : ℚ) (hA : 0 ≤ A) (hS0 : 0 < S0)
    (hvn1 : (1 - 1 / 2 ^ 53) * A ≤ vn) (hvn2 : vn ≤ (1 + 1 / 2 ^ 53) * A)
    (hvs1 : (1 - 1 / 2 ^ 53) ^ 3 * S0 ≤ vs) (hvs2 : vs ≤ (1 + 1 / 2 ^ 53) ^ 3 * S0)
    (hr1 : (1 - 1 / 2 ^ 53) * (vn / vs) ≤ r) (hr2 : r ≤ (1 + 1 / 2 ^ 53) * (vn / vs)) :
    |r - A / S0| ≤ A / S0 / 2 ^ 50 := by
  have hvs0 : 0 < vs := lt_of_lt_of_le (mul_pos (by norm_num) hS0) hvs1
  have hvn0 : 0 ≤ vn := le_trans (mul_nonneg (by norm_num) hA) hvn1
  have hX0 : 0 ≤ A / S0 := div_nonneg hA (le_of_lt hS0)
  have hAX : A = A / S0 * S0 := (div_mul_cancel₀ _ (ne_of_gt hS0)).symm
  have hv0 : 0 ≤ vn / vs := div_nonneg hvn0 (le_of_lt hvs0)
  have hvv : vn / vs * vs = vn := div_mul_cancel₀ _ (ne_of_gt hvs0)
  generalize A / S0 = X at hX0 hAX ⊢
  generalize vn / vs = v at hv0 hvv hr1 hr2
  -- v * (1-u)^3 ≤ (1+u) * X
  have h1 : v * (1 - 1 / 2 ^ 53) ^ 3 ≤ (1 + 1 / 2 ^ 53) * X := by
    apply le_of_mul_le_mul_right _ hS0
    calc v * (1 - 1 / 2 ^ 53) ^ 3 * S0 = v * ((1 - 1 / 2 ^ 53) ^ 3 * S0) := by ring
      _ ≤ v * vs := mul_le_mul_of_nonneg_left hvs1 hv0
      _ = vn := hvv
      _ ≤ (1 + 1 / 2 ^ 53) * A := hvn2
      _ = (1 + 1 / 2 ^ 53) * X * S0 := by rw [hAX]; ring
  have h2 : (1 - 1 / 2 ^ 53) * X ≤ v * (1 + 1 / 2 ^ 53) ^ 3 := by
    apply le_of_mul_le_mul_right _ hS0
    calc (1 - 1 / 2 ^ 53) * X * S0 = (1 - 1 / 2 ^ 53) * A := by rw [hAX]; ring
      _ ≤ vn := hvn1
      _ = v * vs := hvv.symm
      _ ≤ v * ((1 + 1 / 2 ^ 53) ^ 3 * S0) := mul_le_mul_of_nonneg_left hvs2 hv0
      _ = v * (1 + 1 / 2 ^ 53) ^ 3 * S0 := by ring
  rw [abs_le]
  norm_num at h1 h2 hr1 hr2 ⊢
  constructor <;> linarith

/-- For a positive elapsed time the rate operand is a finite `float64` with the sign
of `N`, within `2 ^ -50` (relative) of the quotient of `N` by the elapsed seconds
`d / 10^9`. -/
theorem rateOperand_accurate (N d : Int) (hN : minInt ≤ N) (hN2 : N ≤ maxInt) (hd : 0 < d)
    (hd2 : d ≤ maxInt) :
    ∃ m e, rateOperand N d = F64.finite (decide (N < 0)) m e ∧
      |(rateOperand N d).value - (N : ℚ) / ((d : ℚ) / 10 ^ 9)| ≤
        |(N : ℚ) / ((d : ℚ) / 10 ^ 9)| / 2 ^ 50 := by
  obtain ⟨mS, eS, hS, hS52, hS53, hSlo, hShi⟩ := durationSeconds_spec d hd hd2
  have hNabs : N.natAbs ≤ 2 ^ 63 := by
    unfold minInt at hN; unfold maxInt at hN2; omega
  obtain ⟨mN, eN, hNf, hN53, hN0, hN52, -, -, hNerr⟩ := f64ofInt_near N hNabs
  have hmS : 0 < mS := by
    have : 0 < 2 ^ 52 := by norm_num
    omega
  have hdq : (0 : ℚ) < (d : ℚ) / 10 ^ 9 := by
    have : (0 : ℚ) < d := by exact_mod_cast hd
    positivity
  unfold rateOperand
  rw [hNf, hS]
  by_cases hz : N = 0
  · have hm : mN = 0 := hN0.2 hz
    subst hm
    rw [f64div_zero _ _ _ _ _ hmS]
    refine ⟨0, 0, by simp, ?_⟩
    simp [F64.value, hz]
  · have hmN : 0 < mN := by
      have := hN52 hz
      have : 0 < 2 ^ 52 := by norm_num
      omega
    obtain ⟨hNlo, hNhi⟩ := near_bounds hNerr
    have hA1 : (1 : ℚ) ≤ |(N : ℚ)| := by
      have : (1 : Int) ≤ |N| := Int.one_le_abs hz
      exact_mod_cast this
    have hA2 : |(N : ℚ)| ≤ 2 ^ 63 := by
      rw [← Int.cast_abs]
      have : |N| ≤ 2 ^ 63 := by rw [Int.abs_eq_natAbs]; exact_mod_cast hNabs
      exact_mod_cast this
    have hd1 : (1 : ℚ) / 10 ^ 9 ≤ (d : ℚ) / 10 ^ 9 := by
      have : (1 : ℚ) ≤ d := by exact_mod_cast hd
      exact div_le_div_of_nonneg_right this (by norm_num)
    have hd3 : (d : ℚ) / 10 ^ 9 ≤ 2 ^ 34 := by
      rw [div_le_iff₀ (by norm_num)]
      have : d ≤ 2 ^ 63 := by unfold maxInt at hd2; omega
      have h1 : (d : ℚ) ≤ 2 ^ 63 := by exact_mod_cast this
      have h2 : (2 : ℚ) ^ 63 ≤ 2 ^ 34 * 10 ^ 9 := by norm_num
      exact le_trans h1 h2
    -- magnitude of the exact quotient of the two rounded operands
    have hvn1 : (1 : ℚ) / 2 ≤ (mN : ℚ) * 2 ^ eN := by
      generalize (mN : ℚ) * 2 ^ eN = vn at hNlo hNhi
      norm_num at hNlo ⊢; linarith
    have hvn2 : (mN : ℚ) * 2 ^ eN ≤ 2 ^ 64 := by
      generalize (mN : ℚ) * 2 ^ eN = vn at hNlo hNhi
      norm_num at hNhi hA2 ⊢; linarith
    have hvs1 : (1 : ℚ) / 2 ^ 31 ≤ (mS : ℚ) * 2 ^ eS := by
      generalize (mS : ℚ) * 2 ^ eS = vs at hSlo hShi
      norm_num at hSlo hd1 ⊢; linarith
    have hvs2 : (mS : ℚ) * 2 ^ eS ≤ 2 ^ 35 := by
      generalize (mS : ℚ) * 2 ^ eS = vs at hSlo hShi
      norm_num at hShi hd3 ⊢; linarith
    have hvs0 : (0 : ℚ) < (mS : ℚ) * 2 ^ eS := lt_of_lt_of_le (by norm_num) hvs1
    have hlo : (2 : ℚ) ^ (-((200 : Nat) : Int)) ≤
        (mN : ℚ) * 2 ^ eN / ((mS : ℚ) * 2 ^ eS) := by
      rw [le_div_iff₀ hvs0]
      have h1 : (2 : ℚ) ^ (-((200 : Nat) : Int)) ≤ 1 / 2 ^ 36 := by norm_num
      calc (2 : ℚ) ^ (-((200 : Nat) : Int)) * ((mS : ℚ) * 2 ^ eS)
          ≤ 1 / 2 ^ 36 * 2 ^ 35 := mul_le_mul h1 hvs2 (le_of_lt hvs0) (by norm_num)
        _ = 1 / 2 := by norm_num
        _ ≤ _ := hvn1
    have hhi : (mN : ℚ) * 2 ^ eN / ((mS : ℚ) * 2 ^ eS) ≤ (2 : ℚ) ^ ((200 : Nat) : Int) := by
      rw [div_le_iff₀ hvs0]
      have h1 : (2 : ℚ) ^ 95 ≤ (2 : ℚ) ^ ((200 : Nat) : Int) := by norm_num
      calc (mN : ℚ) * 2 ^ eN ≤ 2 ^ 64 := hvn2
        _ = 2 ^ 95 * (1 / 2 ^ 31) := by norm_num
        _ ≤ (2 : ℚ) ^ ((200 : Nat) : Int) * ((mS : ℚ) * 2 ^ eS) :=
            mul_le_mul h1 hvs1 (by norm_num) (by positivity)
    obtain ⟨m, e, h1, -, -, -, -, h6⟩ :=
      f64div_spec (decide (N < 0)) false mN mS eN eS 200 hmN hmS (by norm_num) hlo hhi
    obtain ⟨hRlo, hRhi⟩ := near_bounds h6
    have hb := rate_bound |(N : ℚ)| ((d : ℚ) / 10 ^ 9) ((mN : ℚ) * 2 ^ eN)
      ((mS : ℚ) * 2 ^ eS) ((m : ℚ) * 2 ^ e) (abs_nonneg _) hdq hNlo hNhi hSlo hShi hRlo hRhi
    rw [h1]
    refine ⟨m, e, by simp, ?_⟩
    have habsq : |(N : ℚ) / ((d : ℚ) / 10 ^ 9)| = |(N : ℚ)| / ((d : ℚ) / 10 ^ 9) := by
      rw [abs_div, abs_of_pos hdq]
    rw [habsq]
    by_cases hneg : N < 0
    · have hNq : (N : ℚ) < 0 := by exact_mod_cast hneg
      have e1 : (N : ℚ) = -|(N : ℚ)| := by rw [abs_of_neg hNq]; ring
      have e2 : (F64.finite (xor (decide (N < 0)) false) m e).value = -((m : ℚ) * 2 ^ e) := by
        simp [F64.value, hneg]
      rw [e2]
      have e3 : -((m : ℚ) * 2 ^ e) - (N : ℚ) / ((d : ℚ) / 10 ^ 9) =
          -((m : ℚ) * 2 ^ e - |(N : ℚ)| / ((d : ℚ) / 10 ^ 9)) := by
        conv_lhs => rw [e1]
        ring
      rw [e3, abs_neg]
      exact hb
    · have hNq : (0 : ℚ) ≤ (N : ℚ) := by exact_mod_cast (not_lt.1 hneg)
      have e2 : (F64.finite (xor (decide (N < 0)) false) m e).value = (m : ℚ) * 2 ^ e := by
        simp [F64.value, hneg]
      rw [e2]
      have e1 : (N : ℚ) = |(N : ℚ)| := (abs_of_nonneg hNq).symm
      conv_lhs => rw [e1]
      exact hb

/-- The text `%f` prints for a finite value: an optional `-`, then the decimal digits
of `r / 10^6`, a point and the six digits of `r % 10^6`, where `r` is the integer
nearest to `10^6` times the magnitude. -/
theorem fmtFloat_finite (neg : Bool) (m : Nat) (e : Int) :
    ∃ r : Nat,
      fmtFloat (F64.finite neg m e) =
        String.mk ((if neg then ['-'] else []) ++ (toString (r / 1000000)).toList ++ ['.'] ++
          padLeft 6 (r % 1000000)) ∧
      |(r : ℚ) - (m : ℚ) * 2 ^ e * 10 ^ 6| ≤ 1 / 2 := by
  obtain ⟨hpos, hs⟩ := scaled_spec (m * 1000000) 1 (-e) (by norm_num)
  refine ⟨roundHalfEven (scaled (m * 1000000) 1 (-e)).1 (scaled (m * 1000000) 1 (-e)).2, rfl, ?_⟩
  have h := roundHalfEven_near (scaled (m * 1000000) 1 (-e)).1 (scaled (m * 1000000) 1 (-e)).2 hpos
  rw [hs] at h
  have hv : (((m * 1000000 : Nat) : ℚ)) / ((1 : Nat) : ℚ) / 2 ^ (-e) = (m : ℚ) * 2 ^ e * 10 ^ 6 := by
    rw [zpow_neg, div_inv_eq_mul]
    push_cast
    ring
  rw [hv] at h
  exact h

theorem durationString_samples :
    durationString 0 = "0s" ∧ durationString 999 = "999ns" ∧ durationString 1001 = "1.001µs" ∧
      durationString 1234567 = "1.234567ms" ∧ durationString 1500000000 = "1.5s" ∧
      durationString 100000000000 = "1m40s" ∧ durationString 3600000000000 = "1h0m0s" ∧
      durationString (-1500000000) = "-1.5s" ∧
      durationString 9223372036854775807 = "2562047h47m16.854775807s" := by decide

theorem rate_samples :
    fmtFloat (rateOperand 10 1000000) = "10000.000000" ∧
      fmtFloat (rateOperand 10 1234567) = "8100.005913" ∧
      fmtFloat (rateOperand 1000000 2750000000) = "363636.363636" ∧
      fmtFloat (rateOperand 1 128000000000) = "0.007812" ∧
      fmtFloat (rateOperand 3 128000000000) = "0.023438" ∧
      fmtFloat (rateOperand (-3) 1000000) = "-3000.000000" ∧
      fmtFloat (rateOperand 0 1000000) = "0.000000" ∧
      fmtFloat (rateOperand 10 0) = "+Inf" ∧ fmtFloat (rateOperand (-10) 0) = "-Inf" ∧
      fmtFloat (rateOperand 0 0) = "NaN" := by decide

/-! ## The completion line -/

theorem mainMeasured_sample (fuel : Nat) (gFlag : Bool) :
    mainMeasured fuel gFlag 10 4 [7] 1000000 =
      mainBody fuel gFlag 10 4 [7] "1ms" "10000.000000" := by
  have h1 : durationString 1000000 = "1ms" := by decide
  have h2 : fmtFloat (rateOperand 10 1000000) = "10000.000000" := by decide
  unfold mainMeasured
  rw [h1, h2]

/-- C7 as stated fails: with the default total 10 and an elapsed time of one
millisecond the last line `main` prints is
`Sent 10 packets, took 1ms (10000.000000 dnstap/sec)`, which is not the line of the
specified form for these values and nowhere has a comma followed by a space and an
opening parenthesis. -/
theorem completion_line_has_no_comma :
    mainMeasured 11 false 10 4 [7] 1000000 =
        mainBody 11 false 10 4 [7] "1ms" "10000.000000" ∧
      (mainBody 11 false 10 4 [7] "1ms" "10000.000000").map (fun o => o.stdout.getLast?) =
        some (some "Sent 10 packets, took 1ms (10000.000000 dnstap/sec)\n") ∧
      "Sent 10 packets, took 1ms (10000.000000 dnstap/sec)\n" ≠
        specCompletionLine 10 "1ms" "10000.000000" ∧
      ¬ (", (".toList <:+: "Sent 10 packets, took 1ms (10000.000000 dnstap/sec)\n".toList) :=
  ⟨mainMeasured_sample 11 false, by decide, by decide, by decide⟩

/-- The last line of a completed run of the measured region, for given renderings of
the two operands after `*nFlag`. -/
theorem mainBody_last_line (gFlag : Bool) (N P : Int) (fuel : Nat) (b : Buf)
    (duration rate : String) (o : Outcome)
    (ho : mainBody fuel gFlag N P b duration rate = some o) :
    o.stdout.getLast? =
      some ("Sent " ++ toString N ++ " packets, took " ++ duration ++ " (" ++ rate ++
        " dnstap/sec)\n") := by
  cases hd : mainDispatch fuel gFlag N P with
  | none => simp [mainBody, hd] at ho
  | some d =>
    rw [(mainBody_stdout hd ho).1, completionLine_eq]
    simp

/-- C7, amended: in every run that reaches completion, the last line `main` prints is
`Sent <N> packets, took <duration> (<rate> dnstap/sec)`, where `<N>` is the configured
total in decimal, `<duration>` is the text `runDuration.String()` of the elapsed time
and `<rate>` is what `%f` prints for `float64(N)/runDuration.Seconds()`; a single
space (no comma) stands between `<duration>` and the opening parenthesis.  For a
positive elapsed time of `d` nanoseconds that operand is a finite `float64` with the
sign of `N`, within `2 ^ -50` (relative) of `N / (d / 10^9)`, and `<rate>` is its
decimal rendering with six digits after the point, i.e. of the integer `r` nearest
to `10^6` times its magnitude. -/
theorem completion_line_form (gFlag : Bool) (N P : Int) (fuel : Nat) (b : Buf)
    (runDuration : Int) (o : Outcome)
    (ho : mainMeasured fuel gFlag N P b runDuration = some o) :
    o.stdout.getLast? =
      some ("Sent " ++ toString N ++ " packets, took " ++ durationString runDuration ++
        " (" ++ fmtFloat (f64div (f64ofInt N) (durationSeconds runDuration)) ++
        " dnstap/sec)\n") ∧
    (minInt ≤ N → N ≤ maxInt → 0 < runDuration → runDuration ≤ maxInt →
      ∃ (m : Nat) (e : Int) (r : Nat),
        f64div (f64ofInt N) (durationSeconds runDuration) =
          F64.finite (decide (N < 0)) m e ∧
        |(F64.finite (decide (N < 0)) m e).value - (N : ℚ) / ((runDuration : ℚ) / 10 ^ 9)| ≤
          |(N : ℚ) / ((runDuration : ℚ) / 10 ^ 9)| / 2 ^ 50 ∧
        fmtFloat (f64div (f64ofInt N) (durationSeconds runDuration)) =
          String.mk ((if decide (N < 0) then ['-'] else []) ++
            (toString (r / 1000000)).toList ++ ['.'] ++ padLeft 6 (r % 1000000)) ∧
        |(r : ℚ) - (m : ℚ) * 2 ^ e * 10 ^ 6| ≤ 1 / 2) := by
  refine ⟨mainBody_last_line gFlag N P fuel b _ _ o ho, fun h1 h2 h3 h4 => ?_⟩
  obtain ⟨m, e, hme, hacc⟩ := rateOperand_accurate N runDuration h1 h2 h3 h4
  have hme1 : f64div (f64ofInt N) (durationSeconds runDuration) =
      F64.finite (decide (N < 0)) m e := hme
  obtain ⟨r, hr1, hr2⟩ := fmtFloat_finite (decide (N < 0)) m e
  refine ⟨m, e, r, hme1, ?_, ?_, hr2⟩
  · rw [hme] at hacc
    exact hacc
  · rw [hme1]
    exact hr1

theorem completion_line_form_witness :
    mainMeasured 5 true 10 4 [7] 1000000 =
        some { stdout := ["Starting multiple senders\n", "worker 1: 3 attempts\n",
                          "worker 2: 3 attempts\n", "worker 3: 2 attempts\n",
                          "worker 4: 2 attempts\n",
                          "Sent 10 packets, took 1ms (10000.000000 dnstap/sec)\n"]
               spawned := [(1, 3), (2, 3), (3, 2), (4, 2)]
               sent := List.replicate 10 [7] } ∧
      durationString 1000000 = "1ms" ∧
      fmtFloat (f64div (f64ofInt 10) (durationSeconds 1000000)) = "10000.000000" ∧
      ["Starting multiple senders\n", "worker 1: 3 attempts\n", "worker 2: 3 attempts\n",
        "worker 3: 2 attempts\n", "worker 4: 2 attempts\n",
        "Sent 10 packets, took 1ms (10000.000000 dnstap/sec)\n"].getLast? =
        some ("Sent " ++ toString (10 : Int) ++ " packets, took " ++
          durationString 1000000 ++ " (" ++
          fmtFloat (f64div (f64ofInt 10) (durationSeconds 1000000)) ++ " dnstap/sec)\n") ∧
      ∃ (m : Nat) (e : Int) (r : Nat),
        f64div (f64ofInt 10) (durationSeconds 1000000) =
          F64.finite (decide ((10 : Int) < 0)) m e ∧
        |(F64.finite (decide ((10 : Int) < 0)) m e).value -
            ((10 : Int) : ℚ) / (((1000000 : Int) : ℚ) / 10 ^ 9)| ≤
          |((10 : Int) : ℚ) / (((1000000 : Int) : ℚ) / 10 ^ 9)| / 2 ^ 50 ∧
        fmtFloat (f64div (f64ofInt 10) (durationSeconds 1000000)) =
          String.mk ((if decide ((10 : Int) < 0) then ['-'] else []) ++
            (toString (r / 1000000)).toList ++ ['.'] ++ padLeft 6 (r % 1000000)) ∧
        |(r : ℚ) - (m : ℚ) * 2 ^ e * 10 ^ 6| ≤ 1 / 2 :=
  ⟨(mainMeasured_sample 5 true).trans (by decide), by decide, by decide,
    (completion_line_form true 10 4 5 [7] 1000000
      { stdout := ["Starting multiple senders\n", "worker 1: 3 attempts\n",
                   "worker 2: 3 attempts\n", "worker 3: 2 attempts\n",
                   "worker 4: 2 attempts\n",
                   "Sent 10 packets, took 1ms (10000.000000 dnstap/sec)\n"]
        spawned := [(1, 3), (2, 3), (3, 2), (4, 2)]
        sent := List.replicate 10 [7] } ((mainMeasured_sample 5 true).trans (by decide))).1,
    (completion_line_form true 10 4 5 [7] 1000000
      { stdout := ["Starting multiple senders\n", "worker 1: 3 attempts\n",
                   "worker 2: 3 attempts\n", "worker 3: 2 attempts\n",
                   "worker 4: 2 attempts\n",
                   "Sent 10 packets, took 1ms (10000.000000 dnstap/sec)\n"]
        spawned := [(1, 3), (2, 3), (3, 2), (4, 2)]
        sent := List.replicate 10 [7] } ((mainMeasured_sample 5 true).trans (by decide))).2
      (by decide) (by decide) (by decide) (by decide)⟩

/-! ## The send loops -/

/-- With `attempts` at the largest `int` the loop condition holds for every value of
the counter: after any number of iterations the loop is still running, one send
per iteration. -/
theorem sendLoop_maxInt (b : Buf) : ∀ (fuel : Nat) (attempt : Int) (ch : List Buf),
    attempt ≤ maxInt →
      sendLoop fuel maxInt b attempt ch = Sends.running (ch ++ List.replicate fuel b) := by
  intro fuel
  induction fuel with
  | zero => intro attempt ch _; simp [sendLoop]
  | succ f ih =>
    intro attempt ch h
    unfold sendLoop
    simp only [h, if_true]
    rw [ih (inc attempt) _ (wrapInt_range _).2]
    simp [List.replicate_succ]

theorem sendLoop_run (b : Buf) (attempts : Int) (ha : attempts < maxInt) :
    ∀ (k fuel : Nat) (attempt : Int) (ch : List Buf), minInt ≤ attempt →
      attempt + (k : Int) = attempts + 1 → k < fuel →
      sendLoop fuel attempts b attempt ch = Sends.done (ch ++ List.replicate k b) := by
  intro k
  induction k with
  | zero =>
    intro fuel attempt ch _ hk hf
    obtain ⟨f, rfl⟩ : ∃ f, fuel = f + 1 := ⟨fuel - 1, by omega⟩
    have h : ¬ attempt ≤ attempts := by push_cast at hk; omega
    simp [sendLoop, h]
  | succ k ih =>
    intro fuel attempt ch hlo hk hf
    obtain ⟨f, rfl⟩ : ∃ f, fuel = f + 1 := ⟨fuel - 1, by omega⟩
    have h : attempt ≤ attempts := by push_cast at hk; omega
    have hinc : inc attempt = attempt + 1 := inc_of_lt hlo (by omega)
    unfold sendLoop
    simp only [h, if_true, hinc]
    rw [ih f (attempt + 1) _ (by omega) (by push_cast at hk ⊢; omega) (by omega)]
    simp [List.replicate_succ]

theorem senderFunc_run (b : Buf) (fuel : Nat) (attempts : Int) (ch : List Buf)
    (h0 : 0 ≤ attempts) (ha : attempts < maxInt) (hf : attempts < (fuel : Int)) :
    senderFunc fuel attempts b ch = Sends.done (ch ++ List.replicate attempts.toNat b) := by
  unfold senderFunc
  exact sendLoop_run b attempts ha attempts.toNat fuel 1 ch (by unfold minInt; omega)
    (by rw [Int.toNat_of_nonneg h0]; ring) (by omega)

theorem runWorkers_run (b : Buf) (fuel : Nat) : ∀ (l : List (Int × Int)) (ch : List Buf),
    (∀ w ∈ l, 0 ≤ w.2 ∧ w.2 < maxInt ∧ w.2 < (fuel : Int)) →
      runWorkers fuel b l ch =
        Sends.done (ch ++ List.replicate ((l.map Prod.snd).sum).toNat b) := by
  intro l
  induction l with
  | nil => intro ch _; simp [runWorkers]
  | cons w rest ih =>
    intro ch h
    obtain ⟨i, a⟩ := w
    have hw := h (i, a) (List.mem_cons_self _ _)
    have hrest : ∀ w ∈ rest, 0 ≤ w.2 ∧ w.2 < maxInt ∧ w.2 < (fuel : Int) :=
      fun w hw => h w (List.mem_cons_of_mem _ hw)
    have hsum : 0 ≤ (rest.map Prod.snd).sum := by
      apply List.sum_nonneg
      intro x hx
      rw [List.mem_map] at hx
      obtain ⟨w, hw1, rfl⟩ := hx
      exact (hrest w hw1).1
    unfold runWorkers
    rw [senderFunc_run b fuel a ch hw.1 hw.2.1 hw.2.2]
    simp only
    rw [ih _ hrest, List.map_cons, List.sum_cons, Int.toNat_add hw.1 hsum,
      List.append_assoc, ← List.replicate_add]

theorem mem_plan_bounds {N P : Int} (hN : 0 ≤ N) (hP : 1 ≤ P) :
    ∀ w ∈ plan N P, 0 ≤ w.2 ∧ w.2 ≤ N := by
  intro w hw
  unfold plan planFrom at hw
  rw [List.mem_map] at hw
  obtain ⟨j, _, rfl⟩ := hw
  have hdm : P * (N / P) + N % P = N := Int.ediv_add_emod N P
  have hr0 : 0 ≤ N % P := Int.emod_nonneg _ (by omega)
  have hq0 : 0 ≤ N / P := Int.ediv_nonneg hN (by omega)
  have hqP : (N / P) * 1 ≤ (N / P) * P := mul_le_mul_of_nonneg_left hP hq0
  have hc : P * (N / P) = N / P * P := mul_comm _ _
  by_cases h : (1 : Int) + (j : Int) ≤ N % P
  · simp only [h, if_true]; omega
  · simp only [h, if_false]; omega

/-- For a total below the largest `int`, `main` runs to completion in either mode and
what it has sent before `dnstapOutput.Close()` is the payload `b`, exactly `N` times. -/
theorem mainBody_sends_total (gFlag : Bool) (N P : Int) (fuel : Nat) (b : Buf)
    (duration rate : String) (hN : 0 ≤ N) (hN2 : N < maxInt) (hP : 1 ≤ P)
    (hP2 : P < maxInt) (hf : P < (fuel : Int)) (hf2 : N < (fuel : Int)) :
    ∃ o, mainBody fuel gFlag N P b duration rate = some o ∧
      o.sent = List.replicate N.toNat b := by
  cases gFlag with
  | true =>
    have hd : mainDispatch fuel true N P =
        some { stdout := "Starting multiple senders\n" :: (plan N P).map workerLine
               spawned := plan N P } := by
      unfold mainDispatch
      simp only [if_true]
      exact dispatchWorkers_eq N P fuel hN (le_of_lt hN2) hP hP2 hf
    have hs : mainSends fuel true N b
        { stdout := "Starting multiple senders\n" :: (plan N P).map workerLine
          spawned := plan N P } = Sends.done (List.replicate N.toNat b) := by
      unfold mainSends
      simp only [if_true]
      rw [runWorkers_run b fuel (plan N P) [] (fun w hw => by
        have := mem_plan_bounds hN hP w hw
        omega), sum_plan hN hP]
      simp
    unfold mainBody
    rw [hd]
    simp only
    rw [hs]
    exact ⟨_, rfl, rfl⟩
  | false =>
    have hs : sendLoop fuel N b 1 [] = Sends.done (List.replicate N.toNat b) := by
      rw [sendLoop_run b N hN2 N.toNat fuel 1 [] (by unfold minInt; omega)
        (by rw [Int.toNat_of_nonneg hN]; ring) (by omega)]
      simp
    simp [mainBody, mainDispatch, mainSends, hs]

theorem plan_maxInt_one : plan maxInt 1 = [(1, maxInt)] := by decide

/-- C2 at the total `N = 9223372036854775807`, the largest `int`: in `senderFunc` and in
the single-mode loop the condition `attempt <= N` holds for every value of the
counter, so after any number `fuel` of iterations the loop has sent `fuel` buffers and
is still running, past the `N` sends the claim allows; `main` does not reach
`dnstapOutput.Close()` and does not finish, in single mode for any `P` and in pooled
mode for `P = 1`. -/
theorem max_total_send_loop_never_leaves (fuel : Nat) (b : Buf) (P : Int)
    (duration rate : String) (ch : List Buf) :
    senderFunc fuel maxInt b ch = Sends.running (ch ++ List.replicate fuel b) ∧
    sendLoop fuel maxInt b 1 [] = Sends.running (List.replicate fuel b) ∧
    mainBody fuel false maxInt P b duration rate = none ∧
    (∀ (lib : Lib) (env : Env) (rFlag : Bool) (qFlag : String) (o : Outcome),
      main lib env fuel rFlag qFlag false maxInt P duration rate ≠ Run.finished o) ∧
    mainBody fuel true maxInt 1 b duration rate = none := by
  have h1 : ∀ ch, sendLoop fuel maxInt b 1 ch = Sends.running (ch ++ List.replicate fuel b) :=
    fun ch => sendLoop_maxInt b fuel 1 ch (by decide)
  have h2 : ∀ b1 : Buf, mainBody fuel false maxInt P b1 duration rate = none := by
    intro b1
    have h3 := sendLoop_maxInt b1 fuel 1 [] (by decide)
    simp [mainBody, mainDispatch, mainSends, h3]
  refine ⟨h1 ch, by simpa using h1 [], h2 b, ?_, ?_⟩
  · intro lib env rFlag qFlag o
    unfold main
    cases createDnstapPacket lib env rFlag qFlag with
    | none => simp
    | some b1 => simp [h2 b1]
  · cases hd : mainDispatch fuel true maxInt 1 with
    | none => simp [mainBody, hd]
    | some d =>
      have hfuel : (1 : Int) < (fuel : Int) := by
        by_contra hlt
        have h01 : fuel = 0 ∨ fuel = 1 := by omega
        rcases h01 with h | h
        · subst h
          simp [mainDispatch, dispatchWorkers, partitionLoop] at hd
        · subst h
          have hpos : attemptsFor (goDiv maxInt 1) (goMod maxInt 1) 1 > 0 := by decide
          simp [mainDispatch, dispatchWorkers, partitionLoop, hpos] at hd
      have hd2 := dispatchWorkers_eq maxInt 1 fuel (by decide) (le_refl _) (by decide)
        (by decide) hfuel
      have hd3 : mainDispatch fuel true maxInt 1 = dispatchWorkers fuel maxInt 1 := by
        simp [mainDispatch]
      rw [plan_maxInt_one] at hd2
      rw [hd3] at hd
      simp [mainBody, hd3, hd2, mainSends, runWorkers, senderFunc, h1]

/-! ## The payload builder -/

theorem ParseAddr_query : ParseAddr "198.51.100.2" = some [198, 51, 100, 2] := by decide

theorem ParseAddr_response : ParseAddr "198.51.100.3" = some [198, 51, 100, 3] := by decide

theorem ParseAddr_rejects :
    ParseAddr "198.51.100.03" = none ∧ ParseAddr "198.51.100" = none ∧
      ParseAddr "198.51.100.256" = none ∧ ParseAddr "198..100.2" = none ∧
      ParseAddr "198.51.100.2." = none ∧ ParseAddr "1.2.3.4.5" = none := by decide

theorem responseMsg_ne_queryMsg (lib : Lib) (env : Env) (qname : String) (aRR : lib.RR) :
    responseMsg lib env qname aRR ≠ queryMsg lib env qname := by
  intro h
  have h1 := congrArg Msg.answer h
  simp [responseMsg, queryMsg, Msg.SetQuestion] at h1

theorem createDnstapEnvelope_query (lib : Lib) (env : Env) (qname : String) (wq : Buf)
    (hq : lib.Pack (queryMsg lib env qname) = some wq) :
    createDnstapEnvelope lib env false qname =
      some { type := some DnstapType.MESSAGE, message := some (expectedMessage env false wq) } := by
  simp only [createDnstapEnvelope, ParseAddr_query, ParseAddr_response, hq,
    Option.bind_eq_bind, Option.some_bind, Option.pure_def, Bool.false_eq_true, if_false]
  rfl

theorem createDnstapEnvelope_response (lib : Lib) (env : Env) (qname : String) (wq : Buf)
    (aRR : lib.RR) (hq : lib.Pack (queryMsg lib env qname) = some wq)
    (hrr : lib.NewRR "example.com. 3600 IN A 198.51.100.4" = some aRR) :
    createDnstapEnvelope lib env true qname =
      some { type := some DnstapType.MESSAGE, message := some (expectedMessage env true wq) } := by
  simp only [createDnstapEnvelope, ParseAddr_query, ParseAddr_response, hq, hrr,
    Option.bind_eq_bind, Option.some_bind, Option.pure_def, if_true]
  rfl

/-- C8: for every query name `Q` whose query message packs to the wire bytes `Wq`,
`createDnstapPacket(false, Q)` serializes an envelope whose message-type tag is
CLIENT_QUERY, whose query-message field is `Wq` and whose response-message field is
unset; `createDnstapPacket(true, Q)` (the answer record being read without error)
serializes an envelope whose message-type tag is CLIENT_RESPONSE, whose
query-message field is unset and whose response-message field is `Wq`, the packed
query message, not a packing of the reply message, which is a different message and
carries the answer record. -/
theorem envelope_message_fields (lib : Lib) (env : Env) (qname : String) (wq : Buf)
    (hq : lib.Pack (queryMsg lib env qname) = some wq) :
    (∃ m, createDnstapEnvelope lib env false qname =
          some { type := some DnstapType.MESSAGE, message := some m } ∧
        createDnstapPacket lib env false qname =
          lib.Marshal { type := some DnstapType.MESSAGE, message := some m } ∧
        m.type = some MessageType.CLIENT_QUERY ∧
        m.queryMessage = some wq ∧ m.responseMessage = none) ∧
    ∀ aRR : lib.RR, lib.NewRR "example.com. 3600 IN A 198.51.100.4" = some aRR →
      (∃ m, createDnstapEnvelope lib env true qname =
            some { type := some DnstapType.MESSAGE, message := some m } ∧
          createDnstapPacket lib env true qname =
            lib.Marshal { type := some DnstapType.MESSAGE, message := some m } ∧
          m.type = some MessageType.CLIENT_RESPONSE ∧
          m.queryMessage = none ∧
          m.responseMessage = lib.Pack (queryMsg lib env qname)) ∧
        responseMsg lib env qname aRR ≠ queryMsg lib env qname ∧
        (responseMsg lib env qname aRR).answer = [aRR] ∧
        (queryMsg lib env qname).answer = [] := by
  constructor
  · have he := createDnstapEnvelope_query lib env qname wq hq
    exact ⟨_, he, by simp only [createDnstapPacket, he], rfl, rfl, rfl⟩
  · intro aRR hrr
    have he := createDnstapEnvelope_response lib env qname wq aRR hq hrr
    exact ⟨⟨_, he, by simp only [createDnstapPacket, he], rfl, rfl, hq.symm⟩,
      responseMsg_ne_queryMsg lib env qname aRR, rfl, rfl⟩

theorem envelope_message_fields_witness :
    (∃ m, createDnstapEnvelope sampleLib sampleEnv false "example.com" =
          some { type := some DnstapType.MESSAGE, message := some m } ∧
        createDnstapPacket sampleLib sampleEnv false "example.com" =
          sampleLib.Marshal { type := some DnstapType.MESSAGE, message := some m } ∧
        m.type = some MessageType.CLIENT_QUERY ∧
        m.queryMessage = some [4660, 0, 0, 12] ∧ m.responseMessage = none) ∧
    ∀ aRR : sampleLib.RR,
      sampleLib.NewRR "example.com. 3600 IN A 198.51.100.4" = some aRR →
      (∃ m, createDnstapEnvelope sampleLib sampleEnv true "example.com" =
            some { type := some DnstapType.MESSAGE, message := some m } ∧
          createDnstapPacket sampleLib sampleEnv true "example.com" =
            sampleLib.Marshal { type := some DnstapType.MESSAGE, message := some m } ∧
          m.type = some MessageType.CLIENT_RESPONSE ∧
          m.queryMessage = none ∧
          m.responseMessage = sampleLib.Pack (queryMsg sampleLib sampleEnv "example.com")) ∧
        responseMsg sampleLib sampleEnv "example.com" aRR ≠
          queryMsg sampleLib sampleEnv "example.com" ∧
        (responseMsg sampleLib sampleEnv "example.com" aRR).answer = [aRR] ∧
        (queryMsg sampleLib sampleEnv "example.com").answer = [] :=
  envelope_message_fields sampleLib sampleEnv "example.com" [4660, 0, 0, 12] (by decide)

/-- C9: for every response flag `R` and every query name `Q`, `createDnstapPacket`
stops with a fatal error only when a library call returns an error, and otherwise
the envelope it serializes has envelope type MESSAGE, socket family INET, socket
protocol UDP, query address `198.51.100.2`, response address `198.51.100.3` (4 bytes
each), query port 31337 and response port 53, whatever `R` and `Q` are. -/
theorem envelope_fixed_fields (lib : Lib) (env : Env) (response : Bool) (qname : String) :
    (createDnstapEnvelope lib env response qname = none ↔
      (lib.Pack (queryMsg lib env qname) = none ∨
        (response = true ∧ lib.NewRR "example.com. 3600 IN A 198.51.100.4" = none))) ∧
    ∀ dt, createDnstapEnvelope lib env response qname = some dt →
      createDnstapPacket lib env response qname = lib.Marshal dt ∧
      dt.type = some DnstapType.MESSAGE ∧
      ∃ m, dt.message = some m ∧
        m.socketFamily = some SocketFamily.INET ∧
        m.socketProtocol = some SocketProtocol.UDP ∧
        m.queryAddress = some [198, 51, 100, 2] ∧
        m.responseAddress = some [198, 51, 100, 3] ∧
        m.queryPort = some 31337 ∧ m.responsePort = some 53 := by
  cases hq : lib.Pack (queryMsg lib env qname) with
  | none =>
    have he : createDnstapEnvelope lib env response qname = none := by
      simp [createDnstapEnvelope, ParseAddr_query, ParseAddr_response, hq]
    exact ⟨by simp [he], fun dt hdt => by rw [he] at hdt; cases hdt⟩
  | some wq =>
    cases response with
    | false =>
      have he := createDnstapEnvelope_query lib env qname wq hq
      refine ⟨by simp [he], fun dt hdt => ?_⟩
      rw [he] at hdt
      cases hdt
      exact ⟨by simp only [createDnstapPacket, he], rfl, _, rfl, rfl, rfl, rfl, rfl, rfl, rfl⟩
    | true =>
      cases hrr : lib.NewRR "example.com. 3600 IN A 198.51.100.4" with
      | none =>
        have he : createDnstapEnvelope lib env true qname = none := by
          simp [createDnstapEnvelope, ParseAddr_query, ParseAddr_response, hq, hrr]
        exact ⟨by simp [he], fun dt hdt => by rw [he] at hdt; cases hdt⟩
      | some aRR =>
        have he := createDnstapEnvelope_response lib env qname wq aRR hq hrr
        refine ⟨by simp [he], fun dt hdt => ?_⟩
        rw [he] at hdt
        cases hdt
        exact ⟨by simp only [createDnstapPacket, he], rfl, _, rfl, rfl, rfl, rfl, rfl, rfl,
          rfl⟩

theorem envelope_fixed_fields_witness :
    createDnstapEnvelope sampleLib sampleEnv true "example.com" =
        some { type := some DnstapType.MESSAGE
               message := some (expectedMessage sampleEnv true [4660, 0, 0, 12]) } ∧
      createDnstapPacket sampleLib sampleEnv true "example.com" =
        sampleLib.Marshal
          { type := some DnstapType.MESSAGE
            message := some (expectedMessage sampleEnv true [4660, 0, 0, 12]) } ∧
      (some DnstapType.MESSAGE : Option DnstapType) = some DnstapType.MESSAGE ∧
      ∃ m, some (expectedMessage sampleEnv true [4660, 0, 0, 12]) = some m ∧
        m.socketFamily = some SocketFamily.INET ∧
        m.socketProtocol = some SocketProtocol.UDP ∧
        m.queryAddress = some [198, 51, 100, 2] ∧
        m.responseAddress = some [198, 51, 100, 3] ∧
        m.queryPort = some 31337 ∧ m.responsePort = some 53 :=
  ⟨by decide,
    (envelope_fixed_fields sampleLib sampleEnv true "example.com").2
      { type := some DnstapType.MESSAGE
        message := some (expectedMessage sampleEnv true [4660, 0, 0, 12]) } (by decide)⟩

/-! ## The whole program -/

/-- When the payload builder returns `b` and the total is below the largest `int`,
`main` finishes, and what it has sent before `dnstapOutput.Close()` is `b`, `N` times. -/
theorem main_sends_payload (lib : Lib) (env : Env) (fuel : Nat) (rFlag : Bool)
    (qFlag : String) (gFlag : Bool) (N P : Int) (duration rate : String) (b : Buf)
    (hb : createDnstapPacket lib env rFlag qFlag = some b) (hN : 0 ≤ N) (hN2 : N < maxInt)
    (hP : 1 ≤ P) (hP2 : P < maxInt) (hf : P < (fuel : Int)) (hf2 : N < (fuel : Int)) :
    ∃ o, main lib env fuel rFlag qFlag gFlag N P duration rate = Run.finished o ∧
      o.sent = List.replicate N.toNat b := by
  obtain ⟨o, ho, hs⟩ := mainBody_sends_total gFlag N P fuel b duration rate hN hN2 hP hP2 hf hf2
  exact ⟨o, by simp [main, hb, ho], hs⟩

theorem main_sends_payload_witness :
    ∃ o, main sampleLib sampleEnv 11 true "example.com" true 10 4 "1ms" "10000.000000" =
        Run.finished o ∧
      o.sent = List.replicate (10 : Int).toNat [6, 4660, 0, 0, 12] :=
  main_sends_payload sampleLib sampleEnv 11 true "example.com" true 10 4 "1ms"
    "10000.000000" [6, 4660, 0, 0, 12] (by decide) (by decide) (by decide) (by decide)
    (by decide) (by decide) (by decide)

end Dtbench
